import Mathlib

/-!
Verification development for the `@cp949/web-logger` sanitization engine
(`src/packages/web-logger/src/masking.ts`, `cache.ts`, `constants.ts`,
`managers/SensitiveKeysManager.ts`, `managers/SensitivePatternsManager.ts`).

Strings are modelled as `List Char` (`Str`); JS regular expressions are
modelled by a small regex AST (`RItem`) covering exactly the constructs used
by the seven default sensitive patterns (literals, literal alternation,
greedy-quantified character classes, word boundaries), with a backtracking
matcher and JavaScript `String.replace` (global-flag) semantics.
-/

namespace WebLogger

/-- Strings as lists of characters. -/
abbrev Str := List Char

/-- `String.prototype.toLowerCase` (ASCII range, which covers all registry keys). -/
def strToLower (s : Str) : Str := s.map Char.toLower

/-- `hay.includes(needle)` of JavaScript: substring containment. -/
def containsSub : Str → Str → Bool
  | [], needle => needle.isPrefixOf ([] : Str)
  | c :: t, needle => needle.isPrefixOf (c :: t) || containsSub t needle

/-! ## Character classes and the regex AST -/

/-- A (possibly negated) character class given by inclusive ranges. -/
structure CharCls where
  neg : Bool
  ranges : List (Char × Char)
deriving DecidableEq

/-- Membership in a character class. -/
def clsMem (cc : CharCls) (c : Char) : Bool :=
  let inR := cc.ranges.any (fun r => decide (r.1 ≤ c) && decide (c ≤ r.2))
  if cc.neg then !inR else inR

/-- One element of a compiled pattern: a literal (with case-insensitivity
flag), an alternation of literal strings, a greedy-quantified character class
`cls cc lo hi` (`hi = none` meaning unbounded), or a word boundary. -/
inductive RItem where
  | lit (cs : Str) (ci : Bool)
  | alt (alts : List Str)
  | cls (cc : CharCls) (lo : Nat) (hi : Option Nat)
  | wb
deriving DecidableEq

/-- Character comparison for literals, honouring the `i` flag. -/
def litEq (ci : Bool) (a b : Char) : Bool :=
  if ci then a.toLower == b.toLower else a == b

/-- Strip a literal from the front of the input, or fail. -/
def stripLit (ci : Bool) : Str → Str → Option Str
  | [], s => some s
  | _ :: _, [] => none
  | p :: ps, c :: cs => if litEq ci p c then stripLit ci ps cs else none

/-- Length of the longest prefix of `s` inside class `cc`, capped at `cap`. -/
def runLen (cc : CharCls) : Option Nat → Str → Nat
  | _, [] => 0
  | some 0, _ => 0
  | some (n + 1), c :: cs => if clsMem cc c then runLen cc (some n) cs + 1 else 0
  | none, c :: cs => if clsMem cc c then runLen cc none cs + 1 else 0

/-- Greedy backtracking over a quantifier: try `lo + n - 1`, …, down to `lo`. -/
def tryGreedy (f : Nat → Option Nat) (lo : Nat) : Nat → Option Nat
  | 0 => none
  | n + 1 =>
    match f (lo + n) with
    | some r => some r
    | none => tryGreedy f lo n

/-- First `some` result of `f` over a list, in order. -/
def firstSome (f : α → Option β) : List α → Option β
  | [] => none
  | a :: as =>
    match f a with
    | some b => some b
    | none => firstSome f as

/-- Word characters for `\b` (`[A-Za-z0-9_]`). -/
def wordCls : CharCls := ⟨false, [('A', 'Z'), ('a', 'z'), ('0', '9'), ('_', '_')]⟩

def isWordChar (c : Char) : Bool := clsMem wordCls c

/-- Whether the character before the current position is a word character
(`none` = start of input). -/
def prevW : Option Char → Bool
  | some c => isWordChar c
  | none => false

/-- Whether the character at the current position is a word character
(`[]` = end of input). -/
def headW : Str → Bool
  | [] => false
  | c :: _ => isWordChar c

/-- Match a sequence of items at the current position. `prev` is the character
just before the position (for word boundaries); the result is the number of
characters consumed. The `fuel` argument only drives structural recursion and
is always instantiated above the item count (see `matchAt`). -/
def matchItems : Nat → List RItem → Option Char → Str → Option Nat
  | 0, _, _, _ => none
  | _ + 1, [], _, _ => some 0
  | fuel + 1, .lit cs ci :: rest, prev, s =>
    match stripLit ci cs s with
    | none => none
    | some s' =>
      let prev' := match cs.getLast? with | some c => some c | none => prev
      (matchItems fuel rest prev' s').map (cs.length + ·)
  | fuel + 1, .alt alts :: rest, prev, s =>
    firstSome (fun a =>
      match stripLit false a s with
      | none => none
      | some s' =>
        let prev' := match a.getLast? with | some c => some c | none => prev
        (matchItems fuel rest prev' s').map (a.length + ·)) alts
  | fuel + 1, .cls cc lo hi :: rest, prev, s =>
    let m := runLen cc hi s
    if m < lo then none
    else
      tryGreedy (fun k =>
        let prev' := if k = 0 then prev else (s.take k).getLast?
        (matchItems fuel rest prev' (s.drop k)).map (k + ·)) lo (m - lo + 1)
  | fuel + 1, .wb :: rest, prev, s =>
    if prevW prev != headW s then matchItems fuel rest prev s else none

/-- Match `items` at the current position (with enough fuel for every item). -/
def matchAt (items : List RItem) (prev : Option Char) (s : Str) : Option Nat :=
  matchItems (items.length + 1) items prev s

/-- Leftmost match: returns `(start offset, length)` of the first match of
`items` in `s`, scanning left to right. -/
def findMatch (items : List RItem) : Option Char → Str → Option (Nat × Nat)
  | prev, [] => (matchAt items prev []).map (fun n => (0, n))
  | prev, c :: cs =>
    match matchAt items prev (c :: cs) with
    | some n => some (0, n)
    | none => (findMatch items (some c) cs).map (fun p => (p.1 + 1, p.2))

/-- Worker for global replacement; `fuel` only drives structural recursion
(one unit per match, and each match advances by at least one character). -/
def replAux : Nat → List RItem → Str → Option Char → Str → Str
  | 0, _, _, _, s => s
  | fuel + 1, items, repl, prev, s =>
    match findMatch items prev s with
    | none => s
    | some (st, len) =>
      let pre := s.take st
      let rest := s.drop (st + len)
      let prev' := (s.take (st + len)).getLast?
      if len = 0 then
        -- zero-width match: JS bumps lastIndex past one character; no default
        -- pattern can match the empty string, so this branch is never taken
        match rest with
        | [] => pre ++ repl
        | c :: cs => pre ++ repl ++ c :: replAux fuel items repl (some c) cs
      else pre ++ repl ++ replAux fuel items repl prev' rest

/-- `text.replace(pattern, repl)` for a `g`-flagged pattern: replace every
non-overlapping leftmost match, scanning the original text. -/
def jsReplaceAll (items : List RItem) (repl : Str) (s : Str) : Str :=
  replAux (s.length + 1) items repl none s

/-! ## The seven default sensitive patterns (`constants.ts`, `DEFAULT_SENSITIVE_PATTERNS`) -/

/-- JS `\s` restricted to ASCII whitespace (all inputs considered here are ASCII). -/
def wsChars : List (Char × Char) :=
  [(' ', ' '), ('\t', '\t'), ('\n', '\n'), ('\r', '\r'), ('\x0b', '\x0b'), ('\x0c', '\x0c')]

def digitCls : CharCls := ⟨false, [('0', '9')]⟩
def emailLocalCls : CharCls :=
  ⟨false, [('A', 'Z'), ('a', 'z'), ('0', '9'), ('.', '.'), ('_', '_'), ('%', '%'), ('+', '+'), ('-', '-')]⟩
def emailDomainCls : CharCls := ⟨false, [('A', 'Z'), ('a', 'z'), ('0', '9'), ('.', '.'), ('-', '-')]⟩
/-- `[A-Z|a-z]` of the email pattern: note it literally includes `A-Z`, `|`, `a-z`. -/
def emailTldCls : CharCls := ⟨false, [('A', 'Z'), ('|', '|'), ('a', 'z')]⟩
def cardSepCls : CharCls := ⟨false, wsChars ++ [('-', '-'), ('.', '.'), ('/', '/')]⟩
def phoneSepCls : CharCls := ⟨false, wsChars ++ [('-', '-'), ('.', '.')]⟩
def ssnSepCls : CharCls := ⟨false, wsChars ++ [('-', '-')]⟩
def wsCls : CharCls := ⟨false, wsChars⟩
def b64Cls : CharCls := ⟨false, [('A', 'Z'), ('a', 'z'), ('0', '9'), ('-', '-'), ('_', '_')]⟩
def alnumCls : CharCls := ⟨false, [('a', 'z'), ('A', 'Z'), ('0', '9')]⟩
def pwdFillCls : CharCls := ⟨false, [('\'', '\''), ('"', '"'), (':', ':')] ++ wsChars⟩
def quoteCls : CharCls := ⟨false, [('\'', '\''), ('"', '"')]⟩
def notQuoteCls : CharCls := ⟨true, [('\'', '\''), ('"', '"')]⟩

/-- `/\b[A-Za-z0-9._%+-]+@[A-Za-z0-9.-]+\.[A-Z|a-z]\x7b2,\x7d\b/gi` -/
def emailPat : List RItem :=
  [.wb, .cls emailLocalCls 1 none, .lit ['@'] true, .cls emailDomainCls 1 none,
   .lit ['.'] true, .cls emailTldCls 2 none, .wb]

/-- `/\b\d\x7b4\x7d[\s\-\.\/]?\d\x7b4\x7d[\s\-\.\/]?\d\x7b4\x7d[\s\-\.\/]?\d\x7b3,4\x7d\b/g` -/
def cardPat : List RItem :=
  [.wb, .cls digitCls 4 (some 4), .cls cardSepCls 0 (some 1), .cls digitCls 4 (some 4),
   .cls cardSepCls 0 (some 1), .cls digitCls 4 (some 4), .cls cardSepCls 0 (some 1),
   .cls digitCls 3 (some 4), .wb]

/-- `/(\+82|0)[\s\-\.]?\d\x7b1,2\x7d[\s\-\.]?\d\x7b3,4\x7d[\s\-\.]?\d\x7b4\x7d/g` -/
def phonePat : List RItem :=
  [.alt [['+', '8', '2'], ['0']], .cls phoneSepCls 0 (some 1), .cls digitCls 1 (some 2),
   .cls phoneSepCls 0 (some 1), .cls digitCls 3 (some 4), .cls phoneSepCls 0 (some 1),
   .cls digitCls 4 (some 4)]

/-- `/\b\d\x7b6\x7d[\s\-]?\d\x7b7\x7d\b/g` -/
def ssnPat : List RItem :=
  [.wb, .cls digitCls 6 (some 6), .cls ssnSepCls 0 (some 1), .cls digitCls 7 (some 7), .wb]

/-- `/Bearer\s+[A-Za-z0-9\-_]+\.[A-Za-z0-9\-_]+\.[A-Za-z0-9\-_]+/g` -/
def jwtPat : List RItem :=
  [.lit ("Bearer".toList) false, .cls wsCls 1 none, .cls b64Cls 1 none, .lit ['.'] false,
   .cls b64Cls 1 none, .lit ['.'] false, .cls b64Cls 1 none]

/-- `/[a-zA-Z0-9]\x7b32,\x7d/g` -/
def apiKeyPat : List RItem := [.cls alnumCls 32 none]

/-- the `password['":\s]*['"'][^'"]*['"']/gi` pattern -/
def passwordPat : List RItem :=
  [.lit ("password".toList) true, .cls pwdFillCls 0 none, .cls quoteCls 1 (some 1),
   .cls notQuoteCls 0 none, .cls quoteCls 1 (some 1)]

/-- `DEFAULT_SENSITIVE_PATTERNS`, in insertion order. -/
def defaultPatterns : List (Str × List RItem) :=
  [("email".toList, emailPat), ("card".toList, cardPat), ("phone".toList, phonePat),
   ("ssn".toList, ssnPat), ("jwt".toList, jwtPat), ("apiKey".toList, apiKeyPat),
   ("password".toList, passwordPat)]

/-! ## Constants (`constants.ts`) -/

def MAX_STRING_LENGTH : Nat := 5000
def REGEX_TIMEOUT_MS : Nat := 100
def MAX_DEPTH : Nat := 10

/-- `UNSAFE_KEYS = ['__proto__', 'constructor', 'prototype']` -/
def UNSAFE_KEYS : List Str :=
  ["__proto__".toList, "constructor".toList, "prototype".toList]

def maxDepthMarker : Str := "[MAX_DEPTH]".toList
def circularMarker : Str := "[CIRCULAR]".toList
def truncMarker : Str := "... [TRUNCATED]".toList
def unsafeKeyMarker : Str := "[UNSAFE_KEY]".toList

/-! ## Values and the heap

JavaScript values are modelled with explicit object identity: `vRef a` is a
reference to address `a` of a heap. The modelled object universe is plain
records and arrays (the kinds every claim is about); the `Error`/`Date`/
`Map`/`Set`/`Buffer`/`TypedArray` branches of `sanitizeLogData` concern
object kinds outside this universe. -/

inductive JSVal where
  | vNull
  | vUndefined
  | vStr (s : Str)
  | vNum (n : Int)
  | vBool (b : Bool)
  | vRef (a : Nat)
deriving DecidableEq

inductive HeapObj where
  | record (props : List (Str × JSVal))
  | arr (elems : List JSVal)
deriving DecidableEq

def Heap := Nat → Option HeapObj

/-- Sanitized output values (the structural clones `sanitizeLogData` builds). -/
inductive SVal where
  | null
  | undef
  | str (s : Str)
  | num (n : Int)
  | bool (b : Bool)
  | obj (props : List (Str × SVal))
  | arr (elems : List SVal)

/-- `String(value)` for the modelled values (fuel caps array recursion; JS
stringifies `null`/`undefined` array members as empty, records as
`[object Object]`). -/
def jsToString (h : Heap) : Nat → JSVal → Str
  | _, .vNull => "null".toList
  | _, .vUndefined => "undefined".toList
  | _, .vStr s => s
  | _, .vNum n => (toString n).toList
  | _, .vBool b => (if b then "true" else "false").toList
  | 0, .vRef _ => []
  | fuel + 1, .vRef a =>
    match h a with
    | some (.record _) => "[object Object]".toList
    | some (.arr elems) =>
      List.intercalate [','] (elems.map (fun e =>
        match e with
        | .vNull => []
        | .vUndefined => []
        | v => jsToString h fuel v))
    | none => "undefined".toList

/-! ## Caches (`cache.ts`) -/

/-- `maskValueCache` capacity (`new LRUCache<string, string>(1000)`). -/
def LRU_MAX : Nat := 1000

/-- The LRU cache is modelled as an association list in JS `Map` insertion
order: head = oldest entry, new/touched entries appended at the tail. -/
abbrev MCache := List (Str × Str)

def lruEraseKey (k : Str) (m : MCache) : MCache :=
  m.eraseP (fun e => e.1 == k)

/-- `LRUCache.get`: on a hit, re-insert the entry at the back (most recent). -/
def lruGet (m : MCache) (k : Str) : Option Str × MCache :=
  match m.lookup k with
  | some v => (some v, lruEraseKey k m ++ [(k, v)])
  | none => (none, m)

/-- `LRUCache.set`: replace an existing key in place at the back; otherwise
evict the oldest entry when at capacity, then append. -/
def lruSet (m : MCache) (k : Str) (v : Str) : MCache :=
  if (m.lookup k).isSome then lruEraseKey k m ++ [(k, v)]
  else if LRU_MAX ≤ m.length then m.tail ++ [(k, v)]
  else m ++ [(k, v)]

/-- The object-identity sanitize cache (`WeakMap<object, unknown>`), keyed by
heap address; newest binding first (`lookup` finds it, like `WeakMap.set`
overwriting). -/
abbrev SCache := List (Nat × SVal)

/-! ## Global state: the two registries and the two caches -/

/-- `SensitiveKeysManager.defaultKeys` (28 entries, as written in the source;
lower-cased on construction). -/
def defaultKeys : List Str :=
  (["password", "pwd", "passwd", "token", "apiKey", "api_key", "accessToken",
    "refreshToken", "authToken", "authorization",
    "email", "phone", "phoneNumber", "mobile", "ssn", "socialSecurityNumber",
    "residentNumber", "resident_number",
    "creditCard", "cardNumber", "card_number",
    "secret", "secretKey", "privateKey", "private_key", "sessionId",
    "session_id", "cookie", "cookies"] : List String).map (fun s => s.toList)

def initKeys : List Str := defaultKeys.map strToLower

/-- The process-wide mutable state: both registries and both caches. -/
structure GState where
  keys : List Str
  patterns : List (Str × List RItem)
  suppressWarnings : Bool
  sCache : SCache
  mCache : MCache

def initState : GState :=
  { keys := initKeys, patterns := defaultPatterns, suppressWarnings := false,
    sCache := [], mCache := [] }

/-- `clearSanitizeCache` (`cache.ts`): resets the identity cache *and* clears
the mask-value cache. -/
def clearCaches (st : GState) : GState := { st with sCache := [], mCache := [] }

/-- JS `Set.add` (insertion order preserved, no duplicates). -/
def setAdd (ks : List Str) (k : Str) : List Str :=
  if ks.contains k then ks else ks ++ [k]

/-- `SensitiveKeysManager.addKey`: lower-case, no-op on the empty string,
insert, clear both caches. -/
def addSensitiveKey (st : GState) (k : Str) : GState :=
  if !k.isEmpty then
    clearCaches { st with keys := setAdd st.keys (strToLower k) }
  else st

/-- `SensitiveKeysManager.removeKey`. -/
def removeSensitiveKey (st : GState) (k : Str) : GState :=
  if !k.isEmpty then
    clearCaches { st with keys := st.keys.erase (strToLower k) }
  else st

/-- `SensitiveKeysManager.setKeys`: drop falsy entries, lower-case, replace. -/
def setSensitiveKeys (st : GState) (ks : List Str) : GState :=
  clearCaches
    { st with keys := ((ks.filter (fun k => !k.isEmpty)).map strToLower).foldl setAdd [] }

/-- `SensitiveKeysManager.reset`. -/
def resetSensitiveKeys (st : GState) : GState :=
  clearCaches { st with keys := initKeys }

/-- `SensitivePatternsManager.setPatterns` (inputs are modelled as already
compiled patterns, so `normalizePatterns` keeps every entry; the
missing-defaults warning is a console side effect with no state change). -/
def setSensitivePatterns (st : GState) (ps : List (Str × List RItem)) : GState :=
  clearCaches { st with patterns := ps }

/-- JS object spread `\x7b ...old, ...new \x7d`: existing keys overridden in
place, new keys appended. -/
def mergeAssoc (old ps : List (Str × List RItem)) : List (Str × List RItem) :=
  old.map (fun e => match ps.lookup e.1 with | some v => (e.1, v) | none => e) ++
    ps.filter (fun e => (old.lookup e.1).isNone)

/-- `SensitivePatternsManager.mergePatterns`. -/
def mergeSensitivePatterns (st : GState) (ps : List (Str × List RItem)) : GState :=
  clearCaches { st with patterns := mergeAssoc st.patterns ps }

/-- `SensitivePatternsManager.reset`. -/
def resetSensitivePatterns (st : GState) : GState :=
  clearCaches { st with patterns := defaultPatterns }

/-- `SensitivePatternsManager.setSuppressWarnings` (not a mutation of a
registry; does not clear caches). -/
def setSuppressWarnings (st : GState) (b : Bool) : GState :=
  { st with suppressWarnings := b }

/-- `SensitiveKeysManager.isSensitive`: false for empty input, otherwise a
case-insensitive substring match against every registered keyword. -/
def isSensitiveKey (keys : List Str) (k : Str) : Bool :=
  if k.isEmpty then false
  else keys.any (fun sk => containsSub (strToLower k) sk)

/-! ## `applyRegexWithTimeout` (`masking.ts` lines 29-74)

The loop is embedded generically: each pattern entry carries the wall-clock
elapsed time `Date.now() - startTime` observed at its loop iteration (time is
an external input) and an applier that can signal `inner` (an exception
thrown by that single pattern's `replace`, caught by the per-pattern guard:
skip and continue) or `outer` (an unexpected exception escaping the
per-pattern guard, caught by the outer guard: return the original text).
Returning a `Str` for every input is the embedding of "never throws". -/

inductive RegexFault where
  | inner
  | outer
deriving DecidableEq

abbrev PatEntry := Nat × (Str → Except RegexFault Str)

/-- The `for`-loop of `applyRegexWithTimeout`: `orig` is the text the call
started from, the second `Str` argument the `result` accumulator. -/
def regexLoopG (timeoutMs : Nat) (orig : Str) :
    List PatEntry → Str → Str
  | [], result => result
  | (el, f) :: rest, result =>
    if timeoutMs < el then result
    else
      match f result with
      | .ok r => regexLoopG timeoutMs orig rest r
      | .error .inner => regexLoopG timeoutMs orig rest result
      | .error .outer => orig

/-- `` `[${key.toUpperCase()}]` `` -/
def patTag (name : Str) : Str := ('[' :: name.map Char.toUpper) ++ [']']

/-- The concrete pattern entries: compiled default-style patterns never
throw, so every applier returns `.ok`; `elapsed i` is the clock reading at
iteration `i`. -/
def patEntries (elapsed : Nat → Nat) (pats : List (Str × List RItem)) :
    List PatEntry :=
  pats.enum.map (fun p => (elapsed p.1, fun s => .ok (jsReplaceAll p.2.2 (patTag p.2.1) s)))

/-- `applyRegexWithTimeout(text)` with the registry's patterns. -/
def applyRegexWithTimeout (elapsed : Nat → Nat) (pats : List (Str × List RItem))
    (text : Str) : Str :=
  regexLoopG REGEX_TIMEOUT_MS text (patEntries elapsed pats) text

/-! ## `maskSensitiveValue` (`masking.ts` lines 98-148) -/

/-- The cache key `` `${str}|${key || ''}` ``. -/
def compositeKey (s : Str) (key : Str) : Str := s ++ '|' :: key

/-- The cache-free masking computation (lines 115-143): the email strategy
(`/email/i` on the key and `@` in the value), then the password strategy
(`/password|pwd|passwd/i`), then the generic first-2-characters rule.
`key = []` plays the role of an absent (falsy) key. -/
def maskCore (s : Str) (key : Str) : Str :=
  let lk := strToLower key
  if !key.isEmpty && containsSub lk ("email".toList) && s.contains '@' then
    -- str.split('@'): local = before the first '@', domain = between the
    -- first and second '@'
    let locl := s.takeWhile (fun c => c != '@')
    let after := (s.dropWhile (fun c => c != '@')).tail
    let domain := after.takeWhile (fun c => c != '@')
    if locl.isEmpty || domain.isEmpty then "***".toList
    else if locl.length ≤ 3 then "***@".toList ++ domain
    else locl.take 3 ++ "***@".toList ++ domain
  else if !key.isEmpty &&
      (containsSub lk ("password".toList) || containsSub lk ("pwd".toList) ||
        containsSub lk ("passwd".toList)) then
    if s.length ≤ 2 then "***".toList else s.take 2 ++ "***".toList
  else
    if s.length ≤ 2 then "***".toList else s.take 2 ++ "***".toList

/-- The string part of `maskSensitiveValue` (everything after the
`null`/`undefined` short-circuit and the `String(value)` conversion): empty
strings yield the bare placeholder, otherwise consult the LRU cache under the
composite key, computing and storing `maskCore` on a miss. -/
def maskStr (mc : MCache) (s : Str) (key : Option Str) : Str × MCache :=
  if s.isEmpty then ("***".toList, mc)
  else
    let ck := compositeKey s (key.getD [])
    match lruGet mc ck with
    | (some cached, mc') => (cached, mc')
    | (none, mc') =>
      let masked := maskCore s (key.getD [])
      (masked, lruSet mc' ck masked)

/-- `maskSensitiveValue(value, key?)` threading the LRU mask-value cache. -/
def maskSensitiveValue (mc : MCache) (h : Heap) (v : JSVal) (key : Option Str) :
    Str × MCache :=
  match v with
  | .vNull => ("***".toList, mc)
  | .vUndefined => ("***".toList, mc)
  | _ => maskStr mc (jsToString h (MAX_DEPTH + 2) v) key

/-! ## `sanitizeLogData` (`masking.ts` lines 190-320)

The recursion is driven by a fuel argument for structural termination; every
recursive call of the source uses `depth + 1` and recursion stops at
`depth > MAX_DEPTH`, so any fuel above `MAX_DEPTH + 2` makes the fuel-out
branch unreachable (`sanitizeTop` uses `MAX_DEPTH + 3`). The `visited`
`WeakSet` is one shared, growing set per top-level call, threaded through
the traversal; the global caches live in `GState`. -/

/-- The own-enumerable-property loop of the plain-record branch (lines
288-307), parametric in the recursive call `f` (which the caller instantiates
with `sanitizeLogData` at `depth + 1`). Per property, in source order:
the `UNSAFE_KEYS` guard, then the sensitive-key check (the intervening
`hasOwnProperty` re-check is identically true here because the property list
models `Object.entries`, which already yields own enumerable properties
only), else recursion. -/
def sanPropsWith (f : JSVal → GState → List Nat → SVal × GState × List Nat)
    (h : Heap) :
    List (Str × JSVal) → GState → List Nat → List (Str × SVal) × GState × List Nat
  | [], st, vis => ([], st, vis)
  | (k, v) :: rest, st, vis =>
    if UNSAFE_KEYS.contains k then
      let r := sanPropsWith f h rest st vis
      ((k, .str unsafeKeyMarker) :: r.1, r.2)
    else if isSensitiveKey st.keys k then
      let m := maskSensitiveValue st.mCache h v (some k)
      let r := sanPropsWith f h rest { st with mCache := m.2 } vis
      ((k, .str m.1) :: r.1, r.2)
    else
      let x := f v st vis
      let r := sanPropsWith f h rest x.2.1 x.2.2
      ((k, x.1) :: r.1, r.2)

/-- The array branch (line 316): recurse on every element. -/
def sanElemsWith (f : JSVal → GState → List Nat → SVal × GState × List Nat) :
    List JSVal → GState → List Nat → List SVal × GState × List Nat
  | [], st, vis => ([], st, vis)
  | v :: rest, st, vis =>
    let x := f v st vis
    let r := sanElemsWith f rest x.2.1 x.2.2
    (x.1 :: r.1, r.2)

/-- `sanitizeLogData(data, depth, visited)`. Branch order as in the source:
max-depth guard; `null`/`undefined`; non-string primitives; strings
(truncation then the regex pipeline); object-like values (cycle check before
anything else, then add to `visited`); records (identity-cache lookup, the
property loop, identity-cache store); arrays (no caching). -/
def sanitizeF (elapsed : Nat → Nat) (h : Heap) :
    Nat → JSVal → Nat → GState → List Nat → SVal × GState × List Nat
  | 0, _, _, st, vis => (.undef, st, vis)
  | fuel + 1, data, depth, st, vis =>
    if MAX_DEPTH < depth then (.str maxDepthMarker, st, vis)
    else
      match data with
      | .vNull => (.null, st, vis)
      | .vUndefined => (.undef, st, vis)
      | .vNum n => (.num n, st, vis)
      | .vBool b => (.bool b, st, vis)
      | .vStr s =>
        if MAX_STRING_LENGTH < s.length then
          (.str (applyRegexWithTimeout elapsed st.patterns
            (s.take MAX_STRING_LENGTH ++ truncMarker)), st, vis)
        else (.str (applyRegexWithTimeout elapsed st.patterns s), st, vis)
      | .vRef a =>
        if vis.contains a then (.str circularMarker, st, vis)
        else
          let vis1 := a :: vis
          match h a with
          | none => (.undef, st, vis1)
          | some (.record props) =>
            match st.sCache.lookup a with
            | some r => (r, st, vis1)
            | none =>
              let r := sanPropsWith
                (fun v st2 vis2 => sanitizeF elapsed h fuel v (depth + 1) st2 vis2)
                h props st vis1
              (.obj r.1, { r.2.1 with sCache := (a, .obj r.1) :: r.2.1.sCache }, r.2.2)
          | some (.arr elems) =>
            let r := sanElemsWith
              (fun v st2 vis2 => sanitizeF elapsed h fuel v (depth + 1) st2 vis2)
              elems st vis1
            (.arr r.1, r.2)

/-- A top-level `sanitizeLogData(data)` call: `depth = 0`, fresh empty
`visited`; returns the sanitized value and the updated global state. -/
def sanitizeTop (elapsed : Nat → Nat) (h : Heap) (st : GState) (v : JSVal) :
    SVal × GState :=
  let r := sanitizeF elapsed h (MAX_DEPTH + 3) v 0 st []
  (r.1, r.2.1)

/-- A run in which the regex budget is never exceeded (the clock reads 0
before every pattern). -/
def zeroElapsed : Nat → Nat := fun _ => 0

/-! ## Auxiliary observation functions on sanitized values -/

/-- Whether some string leaf of a sanitized value equals `m` (fuel-bounded
traversal; sanitized outputs have depth at most `MAX_DEPTH + 2`, far below
the fuel used at call sites). -/
def svalHasStr : Nat → Str → SVal → Bool
  | 0, _, _ => false
  | _ + 1, m, .str s => s == m
  | fuel + 1, m, .obj ps => ps.any (fun p => svalHasStr fuel m p.2)
  | fuel + 1, m, .arr es => es.any (svalHasStr fuel m)
  | _ + 1, _, _ => false

/-- The length of a string result (0 for non-strings). -/
def svalStrLen : SVal → Nat
  | .str s => s.length
  | _ => 0

/-! ## Concrete example inputs used by the claims -/

/-- The empty heap (no objects). -/
def emptyHeap : Heap := fun _ => none

/-- `\x7b password: "mypassword123", email: "user@example.com", note: "call 010-1234-5678" \x7d` at address 0. -/
def exHeapC1 : Heap := fun a =>
  if a = 0 then
    some (.record [("password".toList, .vStr "mypassword123".toList),
                   ("email".toList, .vStr "user@example.com".toList),
                   ("note".toList, .vStr "call 010-1234-5678".toList)])
  else none

/-- `\x7b note: "user@example.com" \x7d` at address 0 (non-sensitive key). -/
def exHeapNote : Heap := fun a =>
  if a = 0 then some (.record [("note".toList, .vStr "user@example.com".toList)])
  else none

/-- A chain of `k` nested records: addresses `0, …, k-2` hold
`\x7b child: ref (a+1) \x7d` and address `k-1` holds `\x7b leaf: "x" \x7d`. -/
def chainHeap (k : Nat) : Heap := fun a =>
  if a + 1 < k then some (.record [("child".toList, .vRef (a + 1))])
  else if a + 1 = k then some (.record [("leaf".toList, .vStr "x".toList)])
  else none

/-- `n` nested one-property objects around a leaf value. -/
def nestedSVal : Nat → SVal → SVal
  | 0, leaf => leaf
  | n + 1, leaf => .obj [("child".toList, nestedSVal n leaf)]

/-- An acyclic heap in which the same child object (address 1) is reachable
via the two distinct parent properties `a` and `b` of address 0. -/
def exHeapC5 : Heap := fun a =>
  if a = 0 then some (.record [("a".toList, .vRef 1), ("b".toList, .vRef 1)])
  else if a = 1 then some (.record [("x".toList, .vStr "hi".toList)])
  else none

/-- `\x7b foo: "bar" \x7d` at address 0. -/
def exHeapC8 : Heap := fun a =>
  if a = 0 then some (.record [("foo".toList, .vStr "bar".toList)]) else none

/-- `\x7b foo: "changed" \x7d` at address 0: the same identity as `exHeapC8`'s
object after an in-place mutation of its property value. -/
def exHeapC8m : Heap := fun a =>
  if a = 0 then some (.record [("foo".toList, .vStr "changed".toList)]) else none

/-- `\x7b constructor: \x7b polluted: "yes" \x7d \x7d` at address 0. -/
def exHeapC9 : Heap := fun a =>
  if a = 0 then some (.record [("constructor".toList, .vRef 1)])
  else if a = 1 then some (.record [("polluted".toList, .vStr "yes".toList)])
  else none

/-- The reference cache-free masking computation on `(String(v), key)`,
stated from the spec's words for the refinement comparison with the cached
`maskSensitiveValue`. -/
def maskUncached (h : Heap) (v : JSVal) (key : Option Str) : Str :=
  match v with
  | .vNull => "***".toList
  | .vUndefined => "***".toList
  | _ =>
    let s := jsToString h (MAX_DEPTH + 2) v
    if s.isEmpty then "***".toList else maskCore s (key.getD [])

/-- Soundness of the mask-value cache: every entry was produced by the
cache-free computation on a pipe-free stringified value. -/
def MCacheSound (mc : MCache) : Prop :=
  ∀ e ∈ mc, ∃ s k, '|' ∉ s ∧ e.1 = compositeKey s k ∧ e.2 = maskCore s k

/-- `\x7b name: "test", self: <self> \x7d` at address 0: a direct self-cycle. -/
def exHeapC2 : Heap := fun a =>
  if a = 0 then
    some (.record [("name".toList, .vStr "test".toList), ("self".toList, .vRef 0)])
  else none

def c6head : Str := ['a', '@', 'b', '.', 'c', 'c']

/-- A 6000-character string: a short email followed by 5994 spaces. -/
def c6ex : Str := c6head ++ List.replicate 5994 ' '


/-! ## Character-consumption analysis of the matcher

`itemChars it c` over-approximates "item `it` can consume the character
`c`"; `itemLast it c` over-approximates "`c` can be the final character of a
non-empty consumption by `it`"; `canEmpty it` says `it` can consume zero
characters.  `lastOK items c` then over-approximates "`c` can be the last
character consumed by a match of `items`" (the last character comes from the
last item that consumed anything, all items after it consuming nothing). -/

def itemChars : RItem → Char → Bool
  | .lit cs ci, c => cs.any (fun p => litEq ci p c)
  | .alt alts, c => alts.any (fun a => a.any (fun p => litEq false p c))
  | .cls cc _ _, c => clsMem cc c
  | .wb, _ => false

def itemsChars (items : List RItem) (c : Char) : Bool :=
  items.any (fun it => itemChars it c)

def canEmpty : RItem → Bool
  | .lit cs _ => cs.isEmpty
  | .alt alts => alts.any List.isEmpty
  | .cls _ lo _ => lo == 0
  | .wb => true

def allEmpty (items : List RItem) : Bool := items.all canEmpty

def itemLast : RItem → Char → Bool
  | .lit cs ci, c =>
    match cs.getLast? with
    | some p => litEq ci p c
    | none => false
  | .alt alts, c =>
    alts.any (fun a =>
      match a.getLast? with
      | some p => litEq false p c
      | none => false)
  | .cls cc _ _, c => clsMem cc c
  | .wb, _ => false

def lastOK : List RItem → Char → Bool
  | [], _ => false
  | it :: rest, c => (itemLast it c && allEmpty rest) || lastOK rest c
/-! # Helper lemmas -/

theorem mem_of_lookup_eq_some {α β : Type} [BEq α] [LawfulBEq α] {a : α} {b : β} :
    ∀ {l : List (α × β)}, l.lookup a = some b → (a, b) ∈ l := by
  intro l h
  induction l with
  | nil => simp [List.lookup] at h
  | cons e t ih =>
    obtain ⟨k, v⟩ := e
    rw [List.lookup] at h
    by_cases he : a = k
    · subst he
      simp at h
      subst h
      exact List.mem_cons_self _ _
    · have : (a == k) = false := beq_false_of_ne he
      rw [this] at h
      exact List.mem_cons_of_mem _ (ih h)

theorem mem_of_mem_lruGet (mc : MCache) (k : Str) {e : Str × Str}
    (h : e ∈ (lruGet mc k).2) : e ∈ mc := by
  unfold lruGet at h
  cases hl : mc.lookup k with
  | none => rw [hl] at h; exact h
  | some v =>
    rw [hl] at h
    rcases List.mem_append.1 h with h1 | h1
    · exact (List.eraseP_sublist mc).subset h1
    · simp at h1
      subst h1
      exact mem_of_lookup_eq_some hl

theorem mem_of_mem_lruSet {mc : MCache} {k v : Str} {e : Str × Str}
    (h : e ∈ lruSet mc k v) : e ∈ mc ∨ e = (k, v) := by
  unfold lruSet at h
  by_cases h1 : (mc.lookup k).isSome
  · rw [if_pos h1] at h
    rcases List.mem_append.1 h with h2 | h2
    · exact .inl ((List.eraseP_sublist mc).subset h2)
    · simp at h2; exact .inr h2
  · rw [if_neg h1] at h
    by_cases h2 : LRU_MAX ≤ mc.length
    · rw [if_pos h2] at h
      rcases List.mem_append.1 h with h3 | h3
      · exact .inl ((List.tail_sublist mc).subset h3)
      · simp at h3; exact .inr h3
    · rw [if_neg h2] at h
      rcases List.mem_append.1 h with h3 | h3
      · exact .inl h3
      · simp at h3; exact .inr h3

/-- The composite cache key is injective on pairs whose value part is
pipe-free. -/
theorem compositeKey_inj : ∀ {s s' k k' : Str}, '|' ∉ s → '|' ∉ s' →
    compositeKey s k = compositeKey s' k' → s = s' ∧ k = k' := by
  intro s
  induction s with
  | nil =>
    intro s' k k' _ hs' h
    unfold compositeKey at h
    cases s' with
    | nil => simpa using h
    | cons c t =>
      simp at h
      exact absurd (by rw [h.1]; exact List.mem_cons_self c t) hs'
  | cons c t ih =>
    intro s' k k' hs hs' h
    unfold compositeKey at h
    cases s' with
    | nil =>
      simp at h
      exact absurd (by rw [← h.1]; exact List.mem_cons_self c t) hs
  /- `h : c :: (t ++ '|' :: k) = c' :: (t' ++ '|' :: k')` -/
    | cons c' t' =>
      simp at h
      obtain ⟨hc, hrest⟩ := h
      have ht := ih (List.not_mem_of_not_mem_cons hs) (List.not_mem_of_not_mem_cons hs')
        (by unfold compositeKey; exact hrest)
      exact ⟨by rw [hc, ht.1], ht.2⟩

theorem sanElems_vis_mono (f : JSVal → GState → List Nat → SVal × GState × List Nat)
    (hf : ∀ v st vis, vis ⊆ (f v st vis).2.2) :
    ∀ (elems : List JSVal) (st : GState) (vis : List Nat),
      vis ⊆ (sanElemsWith f elems st vis).2.2 := by
  intro elems
  induction elems with
  | nil => intro st vis; rw [sanElemsWith]; exact fun x hx => hx
  | cons v rest ih =>
    intro st vis
    rw [sanElemsWith]
    exact (hf v st vis).trans (ih _ _)

theorem sanProps_vis_mono (f : JSVal → GState → List Nat → SVal × GState × List Nat)
    (h : Heap) (hf : ∀ v st vis, vis ⊆ (f v st vis).2.2) :
    ∀ (props : List (Str × JSVal)) (st : GState) (vis : List Nat),
      vis ⊆ (sanPropsWith f h props st vis).2.2 := by
  intro props
  induction props with
  | nil => intro st vis; rw [sanPropsWith]; exact fun x hx => hx
  | cons e rest ih =>
    intro st vis
    obtain ⟨k, v⟩ := e
    rw [sanPropsWith]
    by_cases h1 : UNSAFE_KEYS.contains k
    · simp only [h1, if_true]; exact ih _ _
    · simp only [h1, Bool.false_eq_true, if_false]
      by_cases h2 : isSensitiveKey st.keys k
      · simp only [h2, if_true]; exact ih _ _
      · simp only [h2, Bool.false_eq_true, if_false]
        exact (hf v st vis).trans (ih _ _)

/-- `visited` only ever grows along the traversal. -/
theorem sanitizeF_vis_mono (el : Nat → Nat) (h : Heap) :
    ∀ (fuel : Nat) (v : JSVal) (d : Nat) (st : GState) (vis : List Nat),
      vis ⊆ (sanitizeF el h fuel v d st vis).2.2 := by
  intro fuel
  induction fuel with
  | zero => intro v d st vis; rw [sanitizeF]; exact fun x hx => hx
  | succ n ih =>
    intro v d st vis
    rw [sanitizeF.eq_def]
    cases v with
    | vNull =>
      simp only
      split
      · exact fun x hx => hx
      · exact fun x hx => hx
    | vUndefined =>
      simp only
      split
      · exact fun x hx => hx
      · exact fun x hx => hx
    | vNum m =>
      simp only
      split
      · exact fun x hx => hx
      · exact fun x hx => hx
    | vBool b =>
      simp only
      split
      · exact fun x hx => hx
      · exact fun x hx => hx
    | vStr s =>
      simp only
      split
      · exact fun x hx => hx
      · split
        · exact fun x hx => hx
        · exact fun x hx => hx
    | vRef a =>
      simp only
      split
      · exact fun x hx => hx
      · by_cases hin : vis.contains a
        · simp only [if_pos hin]; exact fun x hx => hx
        · simp only [if_neg hin]
          cases hHa : h a with
          | none => simp only [hHa]; exact fun x hx => List.mem_cons_of_mem _ hx
          | some ho =>
            cases ho with
            | record props =>
              simp only [hHa]
              cases hc : st.sCache.lookup a with
              | some r =>
                simp only [hc]
                exact fun x hx => List.mem_cons_of_mem _ hx
              | none =>
                simp only [hc]
                intro x hx
                exact sanProps_vis_mono _ h (fun v' st' vis' => ih v' (d + 1) st' vis')
                  props st (a :: vis) (List.mem_cons_of_mem _ hx)
            | arr elems =>
              simp only [hHa]
              intro x hx
              exact sanElems_vis_mono _ (fun v' st' vis' => ih v' (d + 1) st' vis')
                elems st (a :: vis) (List.mem_cons_of_mem _ hx)

/-- Any object-like value that is actually processed (depth within bounds)
ends up in `visited`. -/
theorem sanitizeF_mem_vis (el : Nat → Nat) (h : Heap) (fuel a d : Nat) (st : GState)
    (vis : List Nat) (hd : ¬ MAX_DEPTH < d) :
    a ∈ (sanitizeF el h (fuel + 1) (.vRef a) d st vis).2.2 := by
  rw [sanitizeF.eq_def]
  simp only [if_neg hd]
  by_cases hin : vis.contains a
  · simp only [if_pos hin]
    exact List.elem_iff.1 hin
  · simp only [if_neg hin]
    cases hHa : h a with
    | none => simp only [hHa]; exact List.mem_cons_self _ _
    | some ho =>
      cases ho with
      | record props =>
        simp only [hHa]
        cases hc : st.sCache.lookup a with
        | some r => simp only [hc]; exact List.mem_cons_self _ _
        | none =>
          simp only [hc]
          exact sanProps_vis_mono _ h
            (fun v' st' vis' => sanitizeF_vis_mono el h fuel v' (d + 1) st' vis')
            props st (a :: vis) (List.mem_cons_self _ _)
      | arr elems =>
        simp only [hHa]
        exact sanElems_vis_mono _
          (fun v' st' vis' => sanitizeF_vis_mono el h fuel v' (d + 1) st' vis')
          elems st (a :: vis) (List.mem_cons_self _ _)

/-- An object already in `visited` is returned as the circular marker
immediately, with no state change and no recursion. -/
theorem sanitizeF_circular (el : Nat → Nat) (h : Heap) (fuel a d : Nat) (st : GState)
    (vis : List Nat) (hd : ¬ MAX_DEPTH < d) (hin : a ∈ vis) :
    sanitizeF el h (fuel + 1) (.vRef a) d st vis = (.str circularMarker, st, vis) := by
  rw [sanitizeF.eq_def]
  simp only [if_neg hd]
  rw [if_pos (List.elem_iff.2 hin)]

theorem sanElems_keys_inv (f : JSVal → GState → List Nat → SVal × GState × List Nat)
    (hf : ∀ v st vis, (f v st vis).2.1.keys = st.keys) :
    ∀ (elems : List JSVal) (st : GState) (vis : List Nat),
      (sanElemsWith f elems st vis).2.1.keys = st.keys := by
  intro elems
  induction elems with
  | nil => intro st vis; rw [sanElemsWith]
  | cons v rest ih =>
    intro st vis
    rw [sanElemsWith]
    rw [ih _ _, hf v st vis]

theorem sanProps_keys_inv (f : JSVal → GState → List Nat → SVal × GState × List Nat)
    (h : Heap) (hf : ∀ v st vis, (f v st vis).2.1.keys = st.keys) :
    ∀ (props : List (Str × JSVal)) (st : GState) (vis : List Nat),
      (sanPropsWith f h props st vis).2.1.keys = st.keys := by
  intro props
  induction props with
  | nil => intro st vis; rw [sanPropsWith]
  | cons e rest ih =>
    intro st vis
    obtain ⟨k, v⟩ := e
    rw [sanPropsWith]
    by_cases h1 : UNSAFE_KEYS.contains k
    · simp only [h1, if_true]; exact ih _ _
    · simp only [h1, Bool.false_eq_true, if_false]
      by_cases h2 : isSensitiveKey st.keys k
      · simp only [h2, if_true]; exact ih _ _
      · simp only [h2, Bool.false_eq_true, if_false]
        rw [ih _ _, hf v st vis]

/-- The sanitizer never mutates the sensitive-key registry. -/
theorem sanitizeF_keys_inv (el : Nat → Nat) (h : Heap) :
    ∀ (fuel : Nat) (v : JSVal) (d : Nat) (st : GState) (vis : List Nat),
      (sanitizeF el h fuel v d st vis).2.1.keys = st.keys := by
  intro fuel
  induction fuel with
  | zero => intro v d st vis; rw [sanitizeF]
  | succ n ih =>
    intro v d st vis
    rw [sanitizeF.eq_def]
    cases v with
    | vNull => simp only; split <;> rfl
    | vUndefined => simp only; split <;> rfl
    | vNum m => simp only; split <;> rfl
    | vBool b => simp only; split <;> rfl
    | vStr s =>
      simp only
      split
      · rfl
      · split <;> rfl
    | vRef a =>
      simp only
      split
      · rfl
      · by_cases hin : vis.contains a
        · simp only [if_pos hin]
        · simp only [if_neg hin]
          cases hHa : h a with
          | none => simp only [hHa]
          | some ho =>
            cases ho with
            | record props =>
              simp only [hHa]
              cases hc : st.sCache.lookup a with
              | some r => simp only [hc]
              | none =>
                simp only [hc]
                exact sanProps_keys_inv _ h (fun v' st' vis' => ih v' (d + 1) st' vis')
                  props st (a :: vis)
            | arr elems =>
              simp only [hHa]
              exact sanElems_keys_inv _ (fun v' st' vis' => ih v' (d + 1) st' vis')
                elems st (a :: vis)

/-- Within the property loop, the first binding of a key `key` that is
neither unsafe nor sensitive and whose value is a reference already in
`visited` sanitizes to the circular marker (looked up by key in the result,
which preserves keys positionally). -/
theorem sanProps_lookup_circ (f : JSVal → GState → List Nat → SVal × GState × List Nat)
    (h : Heap) (a : Nat) (key : Str) (keys0 : List Str)
    (hmono : ∀ v st vis, vis ⊆ (f v st vis).2.2)
    (hkeys : ∀ v st vis, (f v st vis).2.1.keys = st.keys)
    (hcirc : ∀ (st : GState) (vis : List Nat), a ∈ vis →
      (f (.vRef a) st vis).1 = .str circularMarker)
    (hkUnsafe : UNSAFE_KEYS.contains key = false)
    (hsens : isSensitiveKey keys0 key = false) :
    ∀ (props : List (Str × JSVal)) (st : GState) (vis : List Nat),
      a ∈ vis → st.keys = keys0 →
      props.lookup key = some (.vRef a) →
      (sanPropsWith f h props st vis).1.lookup key = some (.str circularMarker) := by
  intro props
  induction props with
  | nil => intro st vis _ _ hlk; simp [List.lookup] at hlk
  | cons e rest ih =>
    intro st vis hvis hk0 hlk
    obtain ⟨k, v⟩ := e
    rw [List.lookup] at hlk
    rw [sanPropsWith]
    by_cases heq : key = k
    · subst heq
      simp only [beq_self_eq_true] at hlk
      injection hlk with hv
      subst hv
      simp only [hkUnsafe, Bool.false_eq_true, if_false]
      rw [hk0]
      simp only [hsens, Bool.false_eq_true, if_false]
      simp only [List.lookup, beq_self_eq_true]
      rw [hcirc st vis hvis]
    · have hbeq : (key == k) = false := beq_false_of_ne heq
      rw [hbeq] at hlk
      by_cases h1 : UNSAFE_KEYS.contains k
      · simp only [h1, if_true]
        simp only [List.lookup, hbeq]
        exact ih st vis hvis hk0 hlk
      · simp only [h1, Bool.false_eq_true, if_false]
        by_cases h2 : isSensitiveKey st.keys k
        · simp only [h2, if_true]
          simp only [List.lookup, hbeq]
          exact ih _ vis hvis hk0 hlk
        · simp only [h2, Bool.false_eq_true, if_false]
          simp only [List.lookup, hbeq]
          exact ih _ _ (hmono v st vis hvis) (by rw [hkeys v st vis, hk0]) hlk

/-- The property loop distributes over append (state and `visited` thread
left to right). -/
theorem sanProps_append (f : JSVal → GState → List Nat → SVal × GState × List Nat)
    (h : Heap) :
    ∀ (xs ys : List (Str × JSVal)) (st : GState) (vis : List Nat),
      sanPropsWith f h (xs ++ ys) st vis =
        ((sanPropsWith f h xs st vis).1 ++
          (sanPropsWith f h ys (sanPropsWith f h xs st vis).2.1
            (sanPropsWith f h xs st vis).2.2).1,
         (sanPropsWith f h ys (sanPropsWith f h xs st vis).2.1
            (sanPropsWith f h xs st vis).2.2).2) := by
  intro xs
  induction xs with
  | nil =>
    intro ys st vis
    rw [List.nil_append, sanPropsWith]
    rfl
  | cons e rest ih =>
    intro ys st vis
    obtain ⟨k, v⟩ := e
    rw [List.cons_append, sanPropsWith, sanPropsWith]
    by_cases h1 : UNSAFE_KEYS.contains k
    · simp only [h1, if_true, ih]
      rfl
    · simp only [h1, Bool.false_eq_true, if_false]
      by_cases h2 : isSensitiveKey st.keys k
      · simp only [h2, if_true, ih]
        rfl
      · simp only [h2, Bool.false_eq_true, if_false, ih]
        rfl

/-! # Claims -/

/-- C1. Two-tier masking priority on plain records: sanitizing
`\x7b password: "mypassword123", email: "user@example.com", note: "call 010-1234-5678" \x7d`
with the default registries yields exactly
`\x7b password: "my***", email: "use***@example.com", note: "call [PHONE]" \x7d`:
key-registry-sensitive property names are masked by the key strategy (the
email value becomes `use***@example.com`, never the pattern tag `[EMAIL]`),
while string values under non-sensitive names get only pattern-based
replacement (`\x7b note: "user@example.com" \x7d` becomes `\x7b note: "[EMAIL]" \x7d`). -/
theorem claim_C1 :
    (sanitizeTop zeroElapsed exHeapC1 initState (.vRef 0)).1 =
      .obj [("password".toList, .str "my***".toList),
            ("email".toList, .str "use***@example.com".toList),
            ("note".toList, .str "call [PHONE]".toList)] ∧
    (sanitizeTop zeroElapsed exHeapNote initState (.vRef 0)).1 =
      .obj [("note".toList, .str "[EMAIL]".toList)] :=
  ⟨rfl, rfl⟩

/-- C3. Depth bound: with `MAX_DEPTH = 10` and depth starting at 0, a
structure nested 12 levels deep sanitizes to the literal `[MAX_DEPTH]`
marker at the 11th level (11 object wrappers, the deeper record never
inspected), while a structure nested exactly 10 levels deep sanitizes fully
and its result contains no depth marker anywhere. -/
theorem claim_C3 :
    (sanitizeTop zeroElapsed (chainHeap 12) initState (.vRef 0)).1 =
      nestedSVal 11 (.str maxDepthMarker) ∧
    (sanitizeTop zeroElapsed (chainHeap 10) initState (.vRef 0)).1 =
      nestedSVal 9 (.obj [("leaf".toList, .str "x".toList)]) ∧
    svalHasStr 20 maxDepthMarker
      (sanitizeTop zeroElapsed (chainHeap 10) initState (.vRef 0)).1 = false :=
  ⟨rfl, rfl, rfl⟩

/-- C4, counterexample. The claim fails as stated: the composite cache key
`stringifiedValue + "|" + key` is not injective when the stringified value
itself contains `|`. Masking the value `"a|b"` with no key stores the mask
`"a|***"` under the key `"a|b|"`; a later call for value `"a"` with property
key `"b|"` builds the same composite key, hits that entry and returns
`"a|***"`, while the cache-free computation on `("a", "b|")` returns `"***"`. -/
theorem claim_C4_counterexample :
    (maskSensitiveValue
        (maskSensitiveValue [] emptyHeap (.vStr ['a', '|', 'b']) none).2
        emptyHeap (.vStr ['a']) (some ['b', '|'])).1 = ['a', '|', '*', '*', '*'] ∧
    maskUncached emptyHeap (.vStr ['a']) (some ['b', '|']) = ['*', '*', '*'] ∧
    (['a', '|', '*', '*', '*'] : Str) ≠ ['*', '*', '*'] :=
  ⟨rfl, rfl, by decide⟩

/-- C4, amended. Provided the stringified value contains no `'|'` character
(so the composite key decomposes uniquely) and every earlier cache entry was
itself produced from a pipe-free stringified value, the cached
`maskSensitiveValue` is observationally equal to the cache-free reference
computation on `(String(v), key)`, and it preserves that cache soundness
invariant. -/
theorem maskStr_spec (mc : MCache) (s : Str) (key : Option Str)
    (hs : MCacheSound mc) (hp : '|' ∉ s) :
    (maskStr mc s key).1 =
      (if s.isEmpty then "***".toList else maskCore s (key.getD [])) ∧
    MCacheSound (maskStr mc s key).2 := by
  unfold maskStr
  by_cases he : s.isEmpty
  · simp [he, hs]
  · simp only [he, if_false, Bool.false_eq_true]
    rcases hg : lruGet mc (compositeKey s (key.getD [])) with ⟨co, mc'⟩
    cases co with
    | some cached =>
      constructor
      · have hmem : (compositeKey s (key.getD []), cached) ∈ mc := by
          unfold lruGet at hg
          rcases hl : List.lookup (compositeKey s (key.getD [])) mc with _ | v'
          · rw [hl] at hg; simp at hg
          · rw [hl] at hg
            simp at hg
            exact hg.1 ▸ mem_of_lookup_eq_some hl
        obtain ⟨s', k', hp', hck, hval⟩ := hs _ hmem
        simp only at hck hval
        obtain ⟨hseq, hkeq⟩ := compositeKey_inj hp' hp hck.symm
        rw [hseq, hkeq] at hval
        exact hval
      · intro e he'
        simp only at he'
        refine hs e (mem_of_mem_lruGet mc (compositeKey s (key.getD [])) ?_)
        rw [hg]
        exact he'
    | none =>
      constructor
      · rfl
      · intro e he'
        simp only at he'
        have hmc' : mc' = mc := by
          unfold lruGet at hg
          rcases hl : List.lookup (compositeKey s (key.getD [])) mc with _ | v'
          · rw [hl] at hg
            simp at hg
            exact hg.symm
          · rw [hl] at hg; simp at hg
        rcases mem_of_mem_lruSet he' with hin | heq
        · exact hs e (hmc' ▸ hin)
        · exact ⟨s, key.getD [], hp, by rw [heq], by rw [heq]⟩

/-- C4, amended. Provided the stringified value contains no `'|'` character
(so the composite key decomposes uniquely) and every earlier cache entry was
itself produced from a pipe-free stringified value, the cached
`maskSensitiveValue` is observationally equal to the cache-free reference
computation on `(String(v), key)`, and it preserves that cache soundness
invariant. -/
theorem claim_C4 (mc : MCache) (h : Heap) (v : JSVal) (key : Option Str)
    (hs : MCacheSound mc) (hp : '|' ∉ jsToString h (MAX_DEPTH + 2) v) :
    (maskSensitiveValue mc h v key).1 = maskUncached h v key ∧
    MCacheSound (maskSensitiveValue mc h v key).2 := by
  cases v with
  | vNull => exact ⟨rfl, hs⟩
  | vUndefined => exact ⟨rfl, hs⟩
  | vStr s => exact maskStr_spec mc _ key hs hp
  | vNum n => exact maskStr_spec mc _ key hs hp
  | vBool b => exact maskStr_spec mc _ key hs hp
  | vRef a => exact maskStr_spec mc _ key hs hp

/-- C4, witness: a fresh cache is sound, `"sec"` is pipe-free, and the
amended equivalence applies. -/
theorem claim_C4_witness :
    (maskSensitiveValue [] emptyHeap (.vStr ['s', 'e', 'c']) none).1 =
      maskUncached emptyHeap (.vStr ['s', 'e', 'c']) none ∧
    MCacheSound (maskSensitiveValue [] emptyHeap (.vStr ['s', 'e', 'c']) none).2 :=
  claim_C4 [] emptyHeap (.vStr ['s', 'e', 'c']) none
    (fun e he => absurd he (List.not_mem_nil e)) (by decide)

/-- C5, counterexample. The claim fails on the code: `visited` is one shared,
growing set for the whole top-level call (the `WeakSet` is passed by
reference), so on the acyclic input `\x7b a: child, b: child \x7d` (the same
child object under two different parent properties) the second occurrence is
flagged circular: the result is `\x7b a: \x7b x: "hi" \x7d, b: "[CIRCULAR]" \x7d`,
not two copies of the redacted structure. -/
theorem claim_C5_counterexample :
    (sanitizeTop zeroElapsed exHeapC5 initState (.vRef 0)).1 =
      .obj [("a".toList, .obj [("x".toList, .str "hi".toList)]),
            ("b".toList, .str circularMarker)] :=
  rfl

/-- C7. Regex-guard error containment, over the generic timeout loop of
`applyRegexWithTimeout` (whose total return type is the embedding of "never
throws"): (1) a pattern whose application throws inside the per-pattern
guard is skipped — the loop's result is as if that entry were absent, so
every remaining pattern is still attempted; (2) an unexpected error escaping
the per-pattern guard makes the function return the original, untransformed
input text. -/
theorem claim_C7 :
    (∀ (pre post : List PatEntry) (el : Nat) (f : Str → Except RegexFault Str)
        (orig cur : Str) (t : Nat),
      (∀ s, f s = .error .inner) → el ≤ t →
      regexLoopG t orig (pre ++ (el, f) :: post) cur =
        regexLoopG t orig (pre ++ post) cur) ∧
    (∀ (post : List PatEntry) (el : Nat) (f : Str → Except RegexFault Str)
        (orig cur : Str) (t : Nat),
      f cur = .error .outer → el ≤ t →
      regexLoopG t orig ((el, f) :: post) cur = orig) := by
  constructor
  · intro pre post el f orig cur t hf hel
    induction pre generalizing cur with
    | nil =>
      rw [List.nil_append, List.nil_append, regexLoopG]
      rw [if_neg (by omega), hf cur]
    | cons e rest ih =>
      obtain ⟨el', f'⟩ := e
      rw [List.cons_append, List.cons_append, regexLoopG, regexLoopG]
      by_cases ht : t < el'
      · rw [if_pos ht, if_pos ht]
      · rw [if_neg ht, if_neg ht]
        cases f' cur with
        | ok r => exact ih r
        | error fa =>
          cases fa with
          | inner => exact ih cur
          | outer => rfl
  · intro post el f orig cur t hf hel
    rw [regexLoopG, if_neg (by omega), hf]

/-- C7, witness: a concrete three-entry pipeline in which the middle
pattern's application throws (inner fault) behaves like the two-entry
pipeline without it, and a pipeline whose head raises an outer fault returns
the original text. -/
theorem claim_C7_witness :
    regexLoopG 100 ['o'] ([(0, fun s => .ok ('a' :: s))] ++
        (5, fun _ => .error .inner) :: [(7, fun s => .ok ('b' :: s))]) ['o'] =
      regexLoopG 100 ['o'] ([(0, fun s => .ok ('a' :: s))] ++
        [(7, fun s => .ok ('b' :: s))]) ['o'] ∧
    regexLoopG 100 ['o'] ((3, fun _ => .error .outer) :: []) ['z'] = ['o'] :=
  ⟨claim_C7.1 [(0, fun s => .ok ('a' :: s))] [(7, fun s => .ok ('b' :: s))]
      5 (fun _ => .error .inner) ['o'] ['o'] 100 (fun _ => rfl) (by omega),
    claim_C7.2 [] 3 (fun _ => .error .outer) ['o'] ['z'] 100 rfl (by omega)⟩

/-- C8. Cache invalidation invariant: every registry-mutating operation —
`addKey`, `removeKey`, `setKeys`, `reset` on the sensitive-key registry
(add/remove mutate only for a non-empty key, their guard), and
`setPatterns`, `mergePatterns`, `reset` on the pattern registry — leaves
both the identity sanitize cache and the mask-value cache empty; and
concretely, sanitizing `\x7b foo: "bar" \x7d` (unmasked), then calling
`addSensitiveKey("foo")`, makes a re-sanitize of the same object mask `foo`
as `"ba***"` instead of hitting the stale identity-cache entry. -/
theorem claim_C8 :
    (∀ (st : GState) (k : Str), k ≠ [] →
      (addSensitiveKey st k).sCache = [] ∧ (addSensitiveKey st k).mCache = []) ∧
    (∀ (st : GState) (k : Str), k ≠ [] →
      (removeSensitiveKey st k).sCache = [] ∧ (removeSensitiveKey st k).mCache = []) ∧
    (∀ (st : GState) (ks : List Str),
      (setSensitiveKeys st ks).sCache = [] ∧ (setSensitiveKeys st ks).mCache = []) ∧
    (∀ st : GState,
      (resetSensitiveKeys st).sCache = [] ∧ (resetSensitiveKeys st).mCache = []) ∧
    (∀ (st : GState) (ps : List (Str × List RItem)),
      (setSensitivePatterns st ps).sCache = [] ∧ (setSensitivePatterns st ps).mCache = []) ∧
    (∀ (st : GState) (ps : List (Str × List RItem)),
      (mergeSensitivePatterns st ps).sCache = [] ∧ (mergeSensitivePatterns st ps).mCache = []) ∧
    (∀ st : GState,
      (resetSensitivePatterns st).sCache = [] ∧ (resetSensitivePatterns st).mCache = []) ∧
    ((sanitizeTop zeroElapsed exHeapC8 initState (.vRef 0)).1 =
        .obj [("foo".toList, .str "bar".toList)] ∧
      (sanitizeTop zeroElapsed exHeapC8
          (addSensitiveKey (sanitizeTop zeroElapsed exHeapC8 initState (.vRef 0)).2
            ("foo".toList))
          (.vRef 0)).1 =
        .obj [("foo".toList, .str ['b', 'a', '*', '*', '*'])]) := by
  refine ⟨?_, ?_, ?_, ?_, ?_, ?_, ?_, rfl, rfl⟩
  · intro st k hk
    rw [addSensitiveKey, if_pos (by simpa [List.isEmpty_iff] using hk)]
    exact ⟨rfl, rfl⟩
  · intro st k hk
    rw [removeSensitiveKey, if_pos (by simpa [List.isEmpty_iff] using hk)]
    exact ⟨rfl, rfl⟩
  · exact fun st ks => ⟨rfl, rfl⟩
  · exact fun st => ⟨rfl, rfl⟩
  · exact fun st ps => ⟨rfl, rfl⟩
  · exact fun st ps => ⟨rfl, rfl⟩
  · exact fun st => ⟨rfl, rfl⟩

/-- C8, witness: `addSensitiveKey` on the default state with the non-empty
key `"foo"` leaves both caches empty. -/
theorem claim_C8_witness :
    (addSensitiveKey initState ("foo".toList)).sCache = [] ∧
    (addSensitiveKey initState ("foo".toList)).mCache = [] :=
  claim_C8.1 initState ("foo".toList) (by decide)

/-- C10. Identity-keyed cache staleness: once a top-level sanitize of the
record at address `a` has completed (under heap `H`, from a state whose
identity cache has no entry for `a`), a second top-level sanitize of the
same address returns exactly the first call's cached result and leaves the
state unchanged — even under a different heap `H'` in which the object's own
properties have been modified (and under a different regex clock): the
second call never re-examines the object's current contents. -/
theorem claim_C10 (el el' : Nat → Nat) (H H' : Heap) (st : GState) (a : Nat)
    (props props' : List (Str × JSVal))
    (h1 : H a = some (.record props)) (h2 : H' a = some (.record props'))
    (hc : st.sCache.lookup a = none) :
    sanitizeTop el' H' (sanitizeTop el H st (.vRef a)).2 (.vRef a) =
      sanitizeTop el H st (.vRef a) := by
  unfold sanitizeTop
  rw [sanitizeF, sanitizeF]
  simp only [List.contains, List.elem, if_neg (by omega : ¬ MAX_DEPTH < 0)]
  rw [h1, hc]
  simp only
  rw [h2]
  simp [List.lookup]


theorem claim_C2 (el : Nat → Nat) (H : Heap) (st : GState) (a : Nat)
    (props : List (Str × JSVal))
    (hH : H a = some (.record props))
    (hself : props.lookup ("self".toList) = some (.vRef a))
    (hc : st.sCache.lookup a = none)
    (hsens : isSensitiveKey st.keys ("self".toList) = false) :
    (∃ rs, (sanitizeTop el H st (.vRef a)).1 = .obj rs ∧
      rs.lookup ("self".toList) = some (.str circularMarker)) ∧
    (∀ (fuel d : Nat) (st2 : GState) (vis : List Nat),
      ¬ MAX_DEPTH < d → a ∈ vis →
      sanitizeF el H (fuel + 1) (.vRef a) d st2 vis = (.str circularMarker, st2, vis)) := by
  constructor
  · unfold sanitizeTop
    rw [sanitizeF.eq_def]
    simp only [hH, hc, if_neg (by decide : ¬ MAX_DEPTH < 0)]
    simp only [show (([] : List Nat).contains a) = false from rfl, Bool.false_eq_true, if_false]
    refine ⟨_, rfl, ?_⟩
    exact sanProps_lookup_circ _ H a ("self".toList) st.keys
      (fun v st' vis' => sanitizeF_vis_mono el H (MAX_DEPTH + 2) v (0 + 1) st' vis')
      (fun v st' vis' => sanitizeF_keys_inv el H (MAX_DEPTH + 2) v (0 + 1) st' vis')
      (fun st' vis' hm => by
        show (sanitizeF el H (MAX_DEPTH + 2) (.vRef a) (0 + 1) st' vis').1 = .str circularMarker
        rw [show MAX_DEPTH + 2 = MAX_DEPTH + 1 + 1 from rfl,
          sanitizeF_circular el H (MAX_DEPTH + 1) a (0 + 1) st' vis' (by decide) hm])
      (by decide) hsens props st [a] (List.mem_cons_self a []) rfl hself
  · intro fuel d st2 vis hd hm
    exact sanitizeF_circular el H fuel a d st2 vis hd hm


theorem claim_C5 (el : Nat → Nat) (H : Heap) (st : GState) (p c : Nat)
    (cprops : List (Str × JSVal))
    (hHp : H p = some (.record [("a".toList, .vRef c), ("b".toList, .vRef c)]))
    (hHc : H c = some (.record cprops))
    (hpc : c ≠ p)
    (hcp : st.sCache.lookup p = none)
    (hcc : st.sCache.lookup c = none)
    (hsa : isSensitiveKey st.keys ("a".toList) = false)
    (hsb : isSensitiveKey st.keys ("b".toList) = false) :
    ∃ rs, (sanitizeTop el H st (.vRef p)).1 =
      .obj [("a".toList, .obj rs), ("b".toList, .str circularMarker)] := by
  unfold sanitizeTop
  rw [sanitizeF.eq_def]
  simp only [hHp, hcp, if_neg (by decide : ¬ MAX_DEPTH < 0),
    show (([] : List Nat).contains p) = false from rfl, Bool.false_eq_true, if_false]
  rw [sanPropsWith]
  simp only [show UNSAFE_KEYS.contains ("a".toList) = false from rfl, Bool.false_eq_true,
    if_false, hsa]
  rw [sanitizeF.eq_def]
  simp only [if_neg (by decide : ¬ MAX_DEPTH < 0 + 1), List.contains, List.elem,
    beq_false_of_ne hpc, hHc, hcc]
  set R := sanPropsWith
    (fun v st2 vis2 => sanitizeF el H (MAX_DEPTH + 1) v (0 + 1 + 1) st2 vis2)
    H cprops st [c, p] with hR
  have hcv : c ∈ R.2.2 := by
    rw [hR]
    exact sanProps_vis_mono _ H
      (fun v s w => sanitizeF_vis_mono el H (MAX_DEPTH + 1) v (0 + 1 + 1) s w)
      cprops st [c, p] (List.mem_cons_self c [p])
  have hkR : R.2.1.keys = st.keys := by
    rw [hR]
    exact sanProps_keys_inv _ H
      (fun v s w => sanitizeF_keys_inv el H (MAX_DEPTH + 1) v (0 + 1 + 1) s w)
      cprops st [c, p]
  refine ⟨R.1, ?_⟩
  rw [sanPropsWith]
  simp only [show UNSAFE_KEYS.contains ("b".toList) = false from rfl, Bool.false_eq_true,
    if_false, hkR, hsb]
  rw [sanPropsWith]
  have hy : (sanitizeF el H (MAX_DEPTH + 2) (.vRef c) (0 + 1)
      { keys := st.keys, patterns := R.2.1.patterns,
        suppressWarnings := R.2.1.suppressWarnings,
        sCache := (c, .obj R.1) :: R.2.1.sCache, mCache := R.2.1.mCache }
      R.2.2) = (.str circularMarker,
      { keys := st.keys, patterns := R.2.1.patterns,
        suppressWarnings := R.2.1.suppressWarnings,
        sCache := (c, .obj R.1) :: R.2.1.sCache, mCache := R.2.1.mCache }, R.2.2) :=
    sanitizeF_circular el H (MAX_DEPTH + 1) c (0 + 1) _ _ (by decide) hcv
  rw [hy]


theorem claim_C2_witness :
    (∃ rs, (sanitizeTop zeroElapsed exHeapC2 initState (.vRef 0)).1 = .obj rs ∧
      rs.lookup ("self".toList) = some (.str circularMarker)) ∧
    (∀ (fuel d : Nat) (st2 : GState) (vis : List Nat),
      ¬ MAX_DEPTH < d → 0 ∈ vis →
      sanitizeF zeroElapsed exHeapC2 (fuel + 1) (.vRef 0) d st2 vis =
        (.str circularMarker, st2, vis)) :=
  claim_C2 zeroElapsed exHeapC2 initState 0
    [("name".toList, .vStr "test".toList), ("self".toList, .vRef 0)]
    rfl (by decide) rfl (by decide)

theorem claim_C5_witness :
    ∃ rs, (sanitizeTop zeroElapsed exHeapC5 initState (.vRef 0)).1 =
      .obj [("a".toList, .obj rs), ("b".toList, .str circularMarker)] :=
  claim_C5 zeroElapsed exHeapC5 initState 0 1 [("x".toList, .vStr "hi".toList)]
    rfl rfl (by decide) rfl rfl (by decide) (by decide)

theorem claim_C9 (f : JSVal → GState → List Nat → SVal × GState × List Nat)
    (h : Heap) (pre post : List (Str × JSVal)) (k : Str) (v v' : JSVal)
    (st : GState) (vis : List Nat) (hk : UNSAFE_KEYS.contains k = true) :
    (sanPropsWith f h (pre ++ (k, v) :: post) st vis =
      sanPropsWith f h (pre ++ (k, v') :: post) st vis) ∧
    (sanPropsWith f h (pre ++ (k, v) :: post) st vis =
      ((sanPropsWith f h pre st vis).1 ++
        (k, .str unsafeKeyMarker) ::
          (sanPropsWith f h post (sanPropsWith f h pre st vis).2.1
            (sanPropsWith f h pre st vis).2.2).1,
        (sanPropsWith f h post (sanPropsWith f h pre st vis).2.1
          (sanPropsWith f h pre st vis).2.2).2)) ∧
    (sanitizeTop zeroElapsed exHeapC9 initState (.vRef 0)).1 =
      .obj [("constructor".toList, .str unsafeKeyMarker)] := by
  have hstep : ∀ (w : JSVal) (st1 : GState) (vis1 : List Nat),
      sanPropsWith f h ((k, w) :: post) st1 vis1 =
        ((k, .str unsafeKeyMarker) :: (sanPropsWith f h post st1 vis1).1,
          (sanPropsWith f h post st1 vis1).2) := by
    intro w st1 vis1
    rw [sanPropsWith]
    simp only [hk, if_true]
  refine ⟨?_, ?_, rfl⟩
  · rw [sanProps_append, sanProps_append, hstep, hstep]
  · rw [sanProps_append, hstep]

theorem claim_C9_witness :
    (sanPropsWith (fun _ st vis => (.null, st, vis)) emptyHeap
        ([] ++ ("constructor".toList, .vNull) :: []) initState [] =
      sanPropsWith (fun _ st vis => (.null, st, vis)) emptyHeap
        ([] ++ ("constructor".toList, .vBool true) :: []) initState []) ∧
    (sanPropsWith (fun _ st vis => (.null, st, vis)) emptyHeap
        ([] ++ ("constructor".toList, .vNull) :: []) initState [] =
      ((sanPropsWith (fun _ st vis => (.null, st, vis)) emptyHeap [] initState []).1 ++
        ("constructor".toList, .str unsafeKeyMarker) ::
          (sanPropsWith (fun _ st vis => (.null, st, vis)) emptyHeap []
            (sanPropsWith (fun _ st vis => (.null, st, vis)) emptyHeap [] initState []).2.1
            (sanPropsWith (fun _ st vis => (.null, st, vis)) emptyHeap [] initState []).2.2).1,
        (sanPropsWith (fun _ st vis => (.null, st, vis)) emptyHeap []
          (sanPropsWith (fun _ st vis => (.null, st, vis)) emptyHeap [] initState []).2.1
          (sanPropsWith (fun _ st vis => (.null, st, vis)) emptyHeap [] initState []).2.2).2)) ∧
    (sanitizeTop zeroElapsed exHeapC9 initState (.vRef 0)).1 =
      .obj [("constructor".toList, .str unsafeKeyMarker)] :=
  claim_C9 (fun _ st vis => (.null, st, vis)) emptyHeap [] []
    ("constructor".toList) .vNull (.vBool true) initState [] (by decide)

theorem claim_C10_witness :
    sanitizeTop zeroElapsed exHeapC8m
        (sanitizeTop zeroElapsed exHeapC8 initState (.vRef 0)).2 (.vRef 0) =
      sanitizeTop zeroElapsed exHeapC8 initState (.vRef 0) :=
  claim_C10 zeroElapsed zeroElapsed exHeapC8 exHeapC8m initState 0
    [("foo".toList, .vStr "bar".toList)] [("foo".toList, .vStr "changed".toList)]
    rfl rfl rfl

theorem sanitizeTop_vStr_long (el : Nat → Nat) (h : Heap) (st : GState) (s : Str)
    (hlen : MAX_STRING_LENGTH < s.length) :
    sanitizeTop el h st (.vStr s) =
      (.str (applyRegexWithTimeout el st.patterns (s.take MAX_STRING_LENGTH ++ truncMarker)),
        st) := by
  unfold sanitizeTop
  rw [sanitizeF.eq_def]
  simp only [if_neg (by decide : ¬ MAX_DEPTH < 0), if_pos hlen]

/-- With a zero clock, the pipeline is the seven default replacements in
insertion order. -/
theorem applyRegex_zero_default (t : Str) :
    applyRegexWithTimeout zeroElapsed defaultPatterns t =
      jsReplaceAll passwordPat (patTag ("password".toList))
        (jsReplaceAll apiKeyPat (patTag ("apiKey".toList))
          (jsReplaceAll jwtPat (patTag ("jwt".toList))
            (jsReplaceAll ssnPat (patTag ("ssn".toList))
              (jsReplaceAll phonePat (patTag ("phone".toList))
                (jsReplaceAll cardPat (patTag ("card".toList))
                  (jsReplaceAll emailPat (patTag ("email".toList)) t)))))) := rfl

theorem findMatch_cons_none (items : List RItem) (prev : Option Char) (c : Char) (cs : Str)
    (h1 : matchAt items prev (c :: cs) = none)
    (h2 : findMatch items (some c) cs = none) :
    findMatch items prev (c :: cs) = none := by
  rw [findMatch.eq_def]
  simp only [h1, h2, Option.map_none']

theorem findMatch_rep_none (items : List RItem) (tl : Str)
    (hsp : ∀ rest, matchAt items (some ' ') (' ' :: rest) = none)
    (hmk : findMatch items (some ' ') tl = none) :
    ∀ n, findMatch items (some ' ') (List.replicate n ' ' ++ tl) = none := by
  intro n
  induction n with
  | zero => simpa using hmk
  | succ m ih =>
    rw [List.replicate_succ, List.cons_append]
    exact findMatch_cons_none items (some ' ') ' ' _ (hsp _) ih

theorem jsReplaceAll_none (items : List RItem) (repl s : Str)
    (h : findMatch items none s = none) : jsReplaceAll items repl s = s := by
  unfold jsReplaceAll
  rw [replAux.eq_def]
  simp only [h]

theorem replAux_of_none (fuel : Nat) (items : List RItem) (repl : Str) (prev : Option Char)
    (s : Str) (h : findMatch items prev s = none) (hf : 1 ≤ fuel) :
    replAux fuel items repl prev s = s := by
  cases fuel with
  | zero => omega
  | succ m =>
    rw [replAux.eq_def]
    simp only [h]

theorem email_tail_none (n : Nat) :
    findMatch emailPat (some 'c') (' ' :: (List.replicate n ' ' ++ truncMarker)) = none :=
  findMatch_cons_none emailPat (some 'c') ' ' _ rfl
    (findMatch_rep_none emailPat truncMarker (fun _ => rfl) (by decide) n)

theorem email_repl (n : Nat) :
    jsReplaceAll emailPat (patTag ("email".toList))
      ('a' :: '@' :: 'b' :: '.' :: 'c' :: 'c' :: ' ' ::(List.replicate n ' ' ++ truncMarker)) =
    '[' :: 'E' :: 'M' :: 'A' :: 'I' :: 'L' :: ']' :: ' ' ::(List.replicate n ' ' ++ truncMarker) := by
  unfold jsReplaceAll
  rw [replAux.eq_def]
  simp only [show findMatch emailPat none
    ('a' :: '@' :: 'b' :: '.' :: 'c' :: 'c' :: ' ' ::(List.replicate n ' ' ++ truncMarker)) =
      some (0, 6) from rfl]
  rw [if_neg (by decide : ¬ (6 = 0)), List.take_zero,
    show List.drop (0 + 6)
        ('a' :: '@' :: 'b' :: '.' :: 'c' :: 'c' :: ' ' ::(List.replicate n ' ' ++ truncMarker)) =
      ' ' :: (List.replicate n ' ' ++ truncMarker) from rfl,
    show (List.take (0 + 6)
        ('a' :: '@' :: 'b' :: '.' :: 'c' :: 'c' :: ' ' ::(List.replicate n ' ' ++ truncMarker))).getLast? =
      some 'c' from rfl,
    replAux_of_none _ _ _ _ _ (email_tail_none n) (by simp)]
  rfl

theorem cardPat_tag_none (n : Nat) :
    findMatch cardPat none
      ('[' :: 'E' :: 'M' :: 'A' :: 'I' :: 'L' :: ']' :: ' ' ::(List.replicate n ' ' ++ truncMarker)) = none :=
  findMatch_cons_none cardPat none '[' _ rfl
    (findMatch_cons_none cardPat (some '[') 'E' _ rfl
      (findMatch_cons_none cardPat (some 'E') 'M' _ rfl
        (findMatch_cons_none cardPat (some 'M') 'A' _ rfl
          (findMatch_cons_none cardPat (some 'A') 'I' _ rfl
            (findMatch_cons_none cardPat (some 'I') 'L' _ rfl
              (findMatch_cons_none cardPat (some 'L') ']' _ rfl
                (findMatch_cons_none cardPat (some ']') ' ' _ rfl
                  (findMatch_rep_none cardPat truncMarker (fun _ => rfl) (by decide) n))))))))

theorem phonePat_tag_none (n : Nat) :
    findMatch phonePat none
      ('[' :: 'E' :: 'M' :: 'A' :: 'I' :: 'L' :: ']' :: ' ' ::(List.replicate n ' ' ++ truncMarker)) = none :=
  findMatch_cons_none phonePat none '[' _ rfl
    (findMatch_cons_none phonePat (some '[') 'E' _ rfl
      (findMatch_cons_none phonePat (some 'E') 'M' _ rfl
        (findMatch_cons_none phonePat (some 'M') 'A' _ rfl
          (findMatch_cons_none phonePat (some 'A') 'I' _ rfl
            (findMatch_cons_none phonePat (some 'I') 'L' _ rfl
              (findMatch_cons_none phonePat (some 'L') ']' _ rfl
                (findMatch_cons_none phonePat (some ']') ' ' _ rfl
                  (findMatch_rep_none phonePat truncMarker (fun _ => rfl) (by decide) n))))))))

theorem ssnPat_tag_none (n : Nat) :
    findMatch ssnPat none
      ('[' :: 'E' :: 'M' :: 'A' :: 'I' :: 'L' :: ']' :: ' ' ::(List.replicate n ' ' ++ truncMarker)) = none :=
  findMatch_cons_none ssnPat none '[' _ rfl
    (findMatch_cons_none ssnPat (some '[') 'E' _ rfl
      (findMatch_cons_none ssnPat (some 'E') 'M' _ rfl
        (findMatch_cons_none ssnPat (some 'M') 'A' _ rfl
          (findMatch_cons_none ssnPat (some 'A') 'I' _ rfl
            (findMatch_cons_none ssnPat (some 'I') 'L' _ rfl
              (findMatch_cons_none ssnPat (some 'L') ']' _ rfl
                (findMatch_cons_none ssnPat (some ']') ' ' _ rfl
                  (findMatch_rep_none ssnPat truncMarker (fun _ => rfl) (by decide) n))))))))

theorem jwtPat_tag_none (n : Nat) :
    findMatch jwtPat none
      ('[' :: 'E' :: 'M' :: 'A' :: 'I' :: 'L' :: ']' :: ' ' ::(List.replicate n ' ' ++ truncMarker)) = none :=
  findMatch_cons_none jwtPat none '[' _ rfl
    (findMatch_cons_none jwtPat (some '[') 'E' _ rfl
      (findMatch_cons_none jwtPat (some 'E') 'M' _ rfl
        (findMatch_cons_none jwtPat (some 'M') 'A' _ rfl
          (findMatch_cons_none jwtPat (some 'A') 'I' _ rfl
            (findMatch_cons_none jwtPat (some 'I') 'L' _ rfl
              (findMatch_cons_none jwtPat (some 'L') ']' _ rfl
                (findMatch_cons_none jwtPat (some ']') ' ' _ rfl
                  (findMatch_rep_none jwtPat truncMarker (fun _ => rfl) (by decide) n))))))))

theorem apiKeyPat_tag_none (n : Nat) :
    findMatch apiKeyPat none
      ('[' :: 'E' :: 'M' :: 'A' :: 'I' :: 'L' :: ']' :: ' ' ::(List.replicate n ' ' ++ truncMarker)) = none :=
  findMatch_cons_none apiKeyPat none '[' _ rfl
    (findMatch_cons_none apiKeyPat (some '[') 'E' _ rfl
      (findMatch_cons_none apiKeyPat (some 'E') 'M' _ rfl
        (findMatch_cons_none apiKeyPat (some 'M') 'A' _ rfl
          (findMatch_cons_none apiKeyPat (some 'A') 'I' _ rfl
            (findMatch_cons_none apiKeyPat (some 'I') 'L' _ rfl
              (findMatch_cons_none apiKeyPat (some 'L') ']' _ rfl
                (findMatch_cons_none apiKeyPat (some ']') ' ' _ rfl
                  (findMatch_rep_none apiKeyPat truncMarker (fun _ => rfl) (by decide) n))))))))

theorem passwordPat_tag_none (n : Nat) :
    findMatch passwordPat none
      ('[' :: 'E' :: 'M' :: 'A' :: 'I' :: 'L' :: ']' :: ' ' ::(List.replicate n ' ' ++ truncMarker)) = none :=
  findMatch_cons_none passwordPat none '[' _ rfl
    (findMatch_cons_none passwordPat (some '[') 'E' _ rfl
      (findMatch_cons_none passwordPat (some 'E') 'M' _ rfl
        (findMatch_cons_none passwordPat (some 'M') 'A' _ rfl
          (findMatch_cons_none passwordPat (some 'A') 'I' _ rfl
            (findMatch_cons_none passwordPat (some 'I') 'L' _ rfl
              (findMatch_cons_none passwordPat (some 'L') ']' _ rfl
                (findMatch_cons_none passwordPat (some ']') ' ' _ rfl
                  (findMatch_rep_none passwordPat truncMarker (fun _ => rfl) (by decide) n))))))))

/-- The full default pipeline on the truncated example: the email is tagged
and every other pattern leaves the text unchanged. -/
theorem c6_pipeline (n : Nat) :
    applyRegexWithTimeout zeroElapsed defaultPatterns
      ('a' :: '@' :: 'b' :: '.' :: 'c' :: 'c' :: ' ' ::(List.replicate n ' ' ++ truncMarker)) =
    '[' :: 'E' :: 'M' :: 'A' :: 'I' :: 'L' :: ']' :: ' ' ::(List.replicate n ' ' ++ truncMarker) := by
  rw [applyRegex_zero_default, email_repl n,
    jsReplaceAll_none _ _ _ (cardPat_tag_none n),
    jsReplaceAll_none _ _ _ (phonePat_tag_none n),
    jsReplaceAll_none _ _ _ (ssnPat_tag_none n),
    jsReplaceAll_none _ _ _ (jwtPat_tag_none n),
    jsReplaceAll_none _ _ _ (apiKeyPat_tag_none n),
    jsReplaceAll_none _ _ _ (passwordPat_tag_none n)]

theorem c6_take :
    c6ex.take MAX_STRING_LENGTH ++ truncMarker =
      'a' :: '@' :: 'b' :: '.' :: 'c' :: 'c' :: ' ' ::(List.replicate 4993 ' ' ++ truncMarker) := by
  show (c6head ++ List.replicate 5994 ' ').take 5000 ++ truncMarker = _
  rw [List.take_append_eq_append_take, List.take_replicate]
  norm_num [c6head]
  rw [show (4994 : Nat) = 4993 + 1 from rfl, List.replicate_succ]
  rfl

/-- C6, counterexample. The claim's length bound fails: the 6000-character
string `"a@b.cc"` + 5994 spaces is truncated to 5000 characters + the
15-character marker (5015 characters), but the email pattern then replaces
the 6-character match `a@b.cc` with the 7-character tag `[EMAIL]`, so the
returned string has 5016 characters — more than 5000 + marker length. -/
theorem claim_C6_counterexample :
    c6ex.length = 6000 ∧
    ¬ svalStrLen (sanitizeTop zeroElapsed emptyHeap initState (.vStr c6ex)).1 ≤
        MAX_STRING_LENGTH + truncMarker.length := by
  have hlen : c6ex.length = 6000 := by
    show (c6head ++ List.replicate 5994 ' ').length = 6000
    rw [List.length_append, List.length_replicate]
    rfl
  refine ⟨hlen, ?_⟩
  rw [sanitizeTop_vStr_long zeroElapsed emptyHeap initState c6ex
    (by rw [hlen]; decide)]
  simp only
  rw [show initState.patterns = defaultPatterns from rfl, c6_take, c6_pipeline 4993]
  simp only [svalStrLen]
  have hL : ('[' :: 'E' :: 'M' :: 'A' :: 'I' :: 'L' :: ']' :: ' ' ::(List.replicate 4993 ' ' ++
      truncMarker)).length = 5016 := by
    simp only [List.length_cons, List.length_append, List.length_replicate]
    rfl
  rw [hL]
  decide

theorem mem_of_getLast?_eq_some {l : Str} {a : Char} (h : l.getLast? = some a) : a ∈ l := by
  obtain ⟨hne, rfl⟩ := List.mem_getLast?_eq_getLast (by rw [h]; rfl)
  exact List.getLast_mem hne

/-- `stripLit` splits its input into a consumed chunk aligned with the
literal and the returned remainder. -/
theorem stripLit_spec (ci : Bool) : ∀ (cs s s' : Str), stripLit ci cs s = some s' →
    ∃ t, s = t ++ s' ∧ t.length = cs.length ∧
      (∀ c ∈ t, cs.any (fun p => litEq ci p c) = true) ∧
      (∀ c, t.getLast? = some c →
        ∃ p, cs.getLast? = some p ∧ litEq ci p c = true)
  | [], s, s', h => by
    refine ⟨[], ?_, rfl, by simp, by simp⟩
    simpa [stripLit] using h
  | p :: ps, [], s', h => by simp [stripLit] at h
  | p :: ps, c :: cs', s', h => by
    rw [stripLit.eq_def] at h
    by_cases hpc : litEq ci p c = true
    case neg => simp [hpc] at h
    · simp [hpc] at h
      obtain ⟨t, rfl, hlen, hchars, hlast⟩ := stripLit_spec ci ps cs' s' h
      refine ⟨c :: t, rfl, by simp [hlen], ?_, ?_⟩
      · intro d hd
        rcases List.mem_cons.mp hd with rfl | hd
        · exact List.any_eq_true.mpr ⟨p, List.mem_cons_self _ _, hpc⟩
        · obtain ⟨q, hq, hq2⟩ := List.any_eq_true.mp (hchars d hd)
          exact List.any_eq_true.mpr ⟨q, List.mem_cons_of_mem _ hq, hq2⟩
      · intro d hd
        rcases ht : t with _ | ⟨t0, tt⟩
        · subst ht
          simp only [List.getLast?_singleton, Option.some_inj] at hd
          subst hd
          have hps : ps = [] := List.length_eq_zero.mp (by simpa using hlen.symm)
          subst hps
          exact ⟨p, rfl, hpc⟩
        · subst ht
          rw [show (c :: t0 :: tt).getLast? = (t0 :: tt).getLast? from rfl] at hd
          obtain ⟨q, hq, hq2⟩ := hlast d hd
          have hps : ps ≠ [] := by
            intro hnil
            rw [hnil] at hlen
            simp at hlen
          rcases hps2 : ps with _ | ⟨p0, pt⟩
          · exact absurd hps2 hps
          · subst hps2
            rw [show (p :: p0 :: pt).getLast? = (p0 :: pt).getLast? from rfl]
            exact ⟨q, hq, hq2⟩

/-- first `some` of `f` over a list comes from an element of the list. -/
theorem firstSome_some {α β : Type} (f : α → Option β) :
    ∀ (as : List α) (b : β), firstSome f as = some b → ∃ a ∈ as, f a = some b
  | [], b, h => by simp [firstSome] at h
  | a :: as, b, h => by
    rw [firstSome.eq_def] at h
    rcases hfa : f a with _ | b'
    · simp only [hfa] at h
      obtain ⟨a', ha', hfa'⟩ := firstSome_some f as b h
      exact ⟨a', List.mem_cons_of_mem _ ha', hfa'⟩
    · simp only [hfa, Option.some_inj] at h
      exact ⟨a, List.mem_cons_self _ _, by rw [hfa, h]⟩

/-- A successful `tryGreedy` comes from `f` at some `k` with `lo ≤ k < lo + n`. -/
theorem tryGreedy_some (f : Nat → Option Nat) (lo : Nat) :
    ∀ (n : Nat) (r : Nat), tryGreedy f lo n = some r →
      ∃ k, lo ≤ k ∧ k < lo + n ∧ f k = some r
  | 0, r, h => by simp [tryGreedy] at h
  | n + 1, r, h => by
    rw [tryGreedy.eq_def] at h
    rcases hf : f (lo + n) with _ | r'
    · simp only [hf] at h
      obtain ⟨k, hk1, hk2, hk3⟩ := tryGreedy_some f lo n r h
      exact ⟨k, hk1, by omega, hk3⟩
    · simp only [hf, Option.some_inj] at h
      exact ⟨lo + n, by omega, by omega, by rw [hf, h]⟩

/-- The class run length never exceeds the input length. -/
theorem runLen_le_length (cc : CharCls) : ∀ (hi : Option Nat) (s : Str),
    runLen cc hi s ≤ s.length
  | _, [] => by rw [runLen.eq_def]; simp
  | some 0, c :: cs => by rw [runLen.eq_def]; simp
  | some (n + 1), c :: cs => by
    rw [runLen.eq_def]
    by_cases hc : clsMem cc c = true
    · simpa [hc] using runLen_le_length cc (some n) cs
    · simp [hc]
  | none, c :: cs => by
    rw [runLen.eq_def]
    by_cases hc : clsMem cc c = true
    · simpa [hc] using runLen_le_length cc none cs
    · simp [hc]

/-- Every character within the class run is in the class. -/
theorem mem_cls_of_take_runLen (cc : CharCls) : ∀ (hi : Option Nat) (s : Str) (k : Nat),
    k ≤ runLen cc hi s → ∀ c ∈ s.take k, clsMem cc c = true
  | _, [], k, hk => by
    intro c hc
    rw [runLen.eq_def] at hk
    simp at hc
  | some 0, c0 :: cs, k, hk => by
    intro c hc
    rw [runLen.eq_def] at hk
    simp only [Nat.le_zero] at hk
    subst hk
    simp at hc
  | some (n + 1), c0 :: cs, k, hk => by
    intro c hc
    rw [runLen.eq_def] at hk
    by_cases h0 : clsMem cc c0 = true
    · simp only [h0, if_true] at hk
      rcases k with _ | j
      · simp at hc
      · rw [List.take_succ_cons] at hc
        rcases List.mem_cons.mp hc with rfl | hc
        · exact h0
        · exact mem_cls_of_take_runLen cc (some n) cs j (by omega) c hc
    · simp [h0] at hk
      subst hk
      simp at hc
  | none, c0 :: cs, k, hk => by
    intro c hc
    rw [runLen.eq_def] at hk
    by_cases h0 : clsMem cc c0 = true
    · simp only [h0, if_true] at hk
      rcases k with _ | j
      · simp at hc
      · rw [List.take_succ_cons] at hc
        rcases List.mem_cons.mp hc with rfl | hc
        · exact h0
        · exact mem_cls_of_take_runLen cc none cs j (by omega) c hc
    · simp [h0] at hk
      subst hk
      simp at hc

theorem orT_left {a b : Bool} (h : a = true) : (a || b) = true := by
  rw [h]
  rfl

theorem orT_right {a b : Bool} (h : b = true) : (a || b) = true := by
  cases a <;> simp [h]

theorem andT {a b : Bool} (h1 : a = true) (h2 : b = true) : (a && b) = true := by
  rw [h1, h2]
  rfl

theorem itemsChars_cons (it : RItem) (rest : List RItem) (c : Char) :
    itemsChars (it :: rest) c = (itemChars it c || itemsChars rest c) := rfl

theorem lastOK_cons (it : RItem) (rest : List RItem) (c : Char) :
    lastOK (it :: rest) c = ((itemLast it c && allEmpty rest) || lastOK rest c) := rfl

theorem allEmpty_cons (it : RItem) (rest : List RItem) :
    allEmpty (it :: rest) = (canEmpty it && allEmpty rest) := rfl

theorem take_eq_nil_cases {l : Str} {n : Nat} (h : l.take n = []) : n = 0 ∨ l = [] := by
  rcases l with _ | ⟨a, t⟩
  · exact Or.inr rfl
  · rcases n with _ | m
    · exact Or.inl rfl
    · simp at h

/-- Structural analysis of a successful match: the consumed length is bounded
by the input length, every consumed character can be consumed by some item,
the last consumed character can end some item's consumption with all later
items consuming nothing (`lastOK`), and a zero-length match forces every
item to be able to consume nothing. -/
theorem matchItems_spec : ∀ (fuel : Nat) (items : List RItem) (prev : Option Char)
    (s : Str) (n : Nat), matchItems fuel items prev s = some n →
    n ≤ s.length ∧
    (∀ c ∈ s.take n, itemsChars items c = true) ∧
    (∀ c, (s.take n).getLast? = some c → lastOK items c = true) ∧
    (n = 0 → allEmpty items = true)
  | 0, items, prev, s, n, h => by simp [matchItems] at h
  | fuel + 1, [], prev, s, n, h => by
    simp only [matchItems, Option.some_inj] at h
    subst h
    exact ⟨Nat.zero_le _, by simp, by simp, fun _ => rfl⟩
  | fuel + 1, .lit cs ci :: rest, prev, s, n, h => by
    simp only [matchItems] at h
    rcases hst : stripLit ci cs s with _ | s'
    · rw [hst] at h
      exact Option.noConfusion h
    · simp only [hst] at h
      obtain ⟨n', hm, hn⟩ := Option.map_eq_some'.mp h
      obtain ⟨hle, hchars, hlast, hzero⟩ := matchItems_spec fuel rest _ s' n' hm
      obtain ⟨t, rfl, hlen, htc, htl⟩ := stripLit_spec ci cs _ s' hst
      subst hn
      have htake : (t ++ s').take (cs.length + n') = t ++ s'.take n' := by
        rw [← hlen, List.take_append]
      refine ⟨?_, ?_, ?_, ?_⟩
      · rw [List.length_append]
        omega
      · rw [htake]
        intro c hc
        rcases List.mem_append.mp hc with hc | hc
        · rw [itemsChars_cons]
          exact orT_left (htc c hc)
        · rw [itemsChars_cons]
          exact orT_right (hchars c hc)
      · rw [htake]
        intro c hd
        by_cases hq : s'.take n' = []
        · rw [hq, List.append_nil] at hd
          obtain ⟨p, hp, hpe⟩ := htl c hd
          have hrest : allEmpty rest = true := by
            rcases take_eq_nil_cases hq with h0 | h0
            · exact hzero h0
            · subst h0
              have hx : n' = 0 := by simpa using hle
              exact hzero hx
          rw [lastOK_cons]
          refine orT_left (andT ?_ hrest)
          show itemLast (.lit cs ci) c = true
          rw [itemLast, hp]
          exact hpe
        · rw [List.getLast?_append_of_ne_nil t hq] at hd
          rw [lastOK_cons]
          exact orT_right (hlast c hd)
      · intro h0
        have hcs : cs = [] := List.length_eq_zero.mp (by omega)
        have hn0 : n' = 0 := by omega
        rw [allEmpty_cons]
        refine andT ?_ (hzero hn0)
        rw [hcs]
        rfl
  | fuel + 1, .alt alts :: rest, prev, s, n, h => by
    simp only [matchItems] at h
    obtain ⟨a, ha, hfa⟩ := firstSome_some _ alts n h
    rcases hst : stripLit false a s with _ | s'
    · simp only [hst] at hfa
      exact Option.noConfusion hfa
    · simp only [hst] at hfa
      obtain ⟨n', hm, hn⟩ := Option.map_eq_some'.mp hfa
      obtain ⟨hle, hchars, hlast, hzero⟩ := matchItems_spec fuel rest _ s' n' hm
      obtain ⟨t, rfl, hlen, htc, htl⟩ := stripLit_spec false a _ s' hst
      subst hn
      have htake : (t ++ s').take (a.length + n') = t ++ s'.take n' := by
        rw [← hlen, List.take_append]
      refine ⟨?_, ?_, ?_, ?_⟩
      · rw [List.length_append]
        omega
      · rw [htake]
        intro c hc
        rcases List.mem_append.mp hc with hc | hc
        · rw [itemsChars_cons]
          refine orT_left ?_
          show List.any alts (fun b => b.any (fun p => litEq false p c)) = true
          exact List.any_eq_true.mpr ⟨a, ha, htc c hc⟩
        · rw [itemsChars_cons]
          exact orT_right (hchars c hc)
      · rw [htake]
        intro c hd
        by_cases hq : s'.take n' = []
        · rw [hq, List.append_nil] at hd
          obtain ⟨p, hp, hpe⟩ := htl c hd
          have hrest : allEmpty rest = true := by
            rcases take_eq_nil_cases hq with h0 | h0
            · exact hzero h0
            · subst h0
              have hx : n' = 0 := by simpa using hle
              exact hzero hx
          rw [lastOK_cons]
          refine orT_left (andT ?_ hrest)
          show itemLast (.alt alts) c = true
          rw [itemLast]
          refine List.any_eq_true.mpr ⟨a, ha, ?_⟩
          rw [hp]
          exact hpe
        · rw [List.getLast?_append_of_ne_nil t hq] at hd
          rw [lastOK_cons]
          exact orT_right (hlast c hd)
      · intro h0
        have hcs : a = [] := List.length_eq_zero.mp (by omega)
        have hn0 : n' = 0 := by omega
        rw [allEmpty_cons]
        refine andT ?_ (hzero hn0)
        show canEmpty (.alt alts) = true
        rw [canEmpty]
        exact List.any_eq_true.mpr ⟨a, ha, by rw [hcs]; rfl⟩
  | fuel + 1, .cls cc lo hi :: rest, prev, s, n, h => by
    simp only [matchItems] at h
    by_cases hm : runLen cc hi s < lo
    · rw [if_pos hm] at h
      exact absurd h (by simp)
    · rw [if_neg hm] at h
      obtain ⟨k, hk1, hk2, hfk⟩ := tryGreedy_some _ lo _ n h
      have hkm : k ≤ runLen cc hi s := by omega
      obtain ⟨n', hmi, hn⟩ := Option.map_eq_some'.mp hfk
      obtain ⟨hle, hchars, hlast, hzero⟩ := matchItems_spec fuel rest _ (s.drop k) n' hmi
      subst hn
      rw [List.length_drop] at hle
      have hks : k ≤ s.length := le_trans hkm (runLen_le_length cc hi s)
      have htake : s.take (k + n') = s.take k ++ (s.drop k).take n' := List.take_add s k n'
      refine ⟨by omega, ?_, ?_, ?_⟩
      · rw [htake]
        intro c hc
        rcases List.mem_append.mp hc with hc | hc
        · rw [itemsChars_cons]
          refine orT_left ?_
          show clsMem cc c = true
          exact mem_cls_of_take_runLen cc hi s k hkm c hc
        · rw [itemsChars_cons]
          exact orT_right (hchars c hc)
      · rw [htake]
        intro c hd
        by_cases hq : (s.drop k).take n' = []
        · rw [hq, List.append_nil] at hd
          have hrest : allEmpty rest = true := by
            rcases take_eq_nil_cases hq with h0 | h0
            · exact hzero h0
            · have h2 := congrArg List.length h0
              rw [List.length_drop] at h2
              simp only [List.length_nil] at h2
              exact hzero (by omega)
          rw [lastOK_cons]
          refine orT_left (andT ?_ hrest)
          show clsMem cc c = true
          exact mem_cls_of_take_runLen cc hi s k hkm c (mem_of_getLast?_eq_some hd)
        · rw [List.getLast?_append_of_ne_nil _ hq] at hd
          rw [lastOK_cons]
          exact orT_right (hlast c hd)
      · intro h0
        have hk0 : k = 0 := by omega
        have hlo : lo = 0 := by omega
        rw [allEmpty_cons]
        refine andT ?_ (hzero (by omega))
        show canEmpty (.cls cc lo hi) = true
        rw [canEmpty, hlo]
        rfl
  | fuel + 1, .wb :: rest, prev, s, n, h => by
    simp only [matchItems] at h
    by_cases hw : (prevW prev != headW s) = true
    · rw [if_pos hw] at h
      obtain ⟨hle, hchars, hlast, hzero⟩ := matchItems_spec fuel rest prev s n h
      refine ⟨hle, ?_, ?_, ?_⟩
      · intro c hc
        rw [itemsChars_cons]
        exact orT_right (hchars c hc)
      · intro c hd
        rw [lastOK_cons]
        exact orT_right (hlast c hd)
      · intro h0
        rw [allEmpty_cons]
        exact andT rfl (hzero h0)
    · rw [if_neg hw] at h
      exact absurd h (by simp)

/-- A match of `items` in `u ++ truncMarker` cannot end inside the marker
when no character of the marker can be the last character of a match. -/
theorem matchAt_marker_lastOK (items : List RItem)
    (hlast : ∀ c ∈ truncMarker, lastOK items c = false) :
    ∀ (u : Str) (prev : Option Char) (len : Nat),
      matchAt items prev (u ++ truncMarker) = some len → len ≤ u.length := by
  intro u prev len h
  by_contra hgt
  push_neg at hgt
  obtain ⟨hle, hchars, hlst, hzero⟩ := matchItems_spec _ items prev _ len h
  rw [List.length_append] at hle
  have hmlen : truncMarker.length = 15 := rfl
  obtain ⟨e, rfl⟩ : ∃ e, len = u.length + e := ⟨len - u.length, by omega⟩
  have he1 : 1 ≤ e := by omega
  have htake : (u ++ truncMarker).take (u.length + e) = u ++ truncMarker.take e :=
    List.take_append e
  have hmne : truncMarker.take e ≠ [] := by
    intro h0
    rcases take_eq_nil_cases h0 with h1 | h1
    · omega
    · exact absurd h1 (by decide)
  obtain ⟨c, hc⟩ : ∃ c, (truncMarker.take e).getLast? = some c := by
    rcases hx : (truncMarker.take e).getLast? with _ | c
    · exact absurd (List.getLast?_eq_none_iff.mp hx) hmne
    · exact ⟨c, rfl⟩
  have hcm : c ∈ truncMarker := List.take_subset e truncMarker (mem_of_getLast?_eq_some hc)
  have hok := hlst c (by rw [htake, List.getLast?_append_of_ne_nil _ hmne]; exact hc)
  rw [hlast c hcm] at hok
  exact Bool.noConfusion hok

/-- A match of `items` in `u ++ truncMarker` cannot end inside the marker
when neither `.` nor a space can end a match (rules out ends within the
leading `... ` of the marker) and no item can consume `[` (rules out ends at
or beyond the `[TRUNCATED]` part). -/
theorem matchAt_marker_bracket (items : List RItem)
    (hdot : lastOK items '.' = false) (hsp : lastOK items ' ' = false)
    (hbr : itemsChars items '[' = false) :
    ∀ (u : Str) (prev : Option Char) (len : Nat),
      matchAt items prev (u ++ truncMarker) = some len → len ≤ u.length := by
  intro u prev len h
  by_contra hgt
  push_neg at hgt
  obtain ⟨hle, hchars, hlst, hzero⟩ := matchItems_spec _ items prev _ len h
  rw [List.length_append] at hle
  have hmlen : truncMarker.length = 15 := rfl
  obtain ⟨e, rfl⟩ : ∃ e, len = u.length + e := ⟨len - u.length, by omega⟩
  have he1 : 1 ≤ e := by omega
  have he2 : e ≤ 15 := by omega
  have htake : (u ++ truncMarker).take (u.length + e) = u ++ truncMarker.take e :=
    List.take_append e
  by_cases he5 : 5 ≤ e
  · have hmem : '[' ∈ truncMarker.take e := by
      interval_cases e <;> decide
    have hch := hchars '[' (by rw [htake]; exact List.mem_append_right u hmem)
    rw [hbr] at hch
    exact Bool.noConfusion hch
  · push_neg at he5
    have hmne : truncMarker.take e ≠ [] := by
      intro h0
      rcases take_eq_nil_cases h0 with h1 | h1
      · omega
      · exact absurd h1 (by decide)
    have hlast4 : (truncMarker.take e).getLast? = some '.' ∨
        (truncMarker.take e).getLast? = some ' ' := by
      interval_cases e
      · exact Or.inl rfl
      · exact Or.inl rfl
      · exact Or.inl rfl
      · exact Or.inr rfl
    rcases hlast4 with hl | hl
    · have hok := hlst '.' (by rw [htake, List.getLast?_append_of_ne_nil _ hmne]; exact hl)
      rw [hdot] at hok
      exact Bool.noConfusion hok
    · have hok := hlst ' ' (by rw [htake, List.getLast?_append_of_ne_nil _ hmne]; exact hl)
      rw [hsp] at hok
      exact Bool.noConfusion hok

/-- A found match comes from `matchAt` at the match's start offset. -/
theorem findMatch_some_matchAt (items : List RItem) :
    ∀ (s : Str) (prev : Option Char) (st len : Nat),
      findMatch items prev s = some (st, len) →
      ∃ prev2, matchAt items prev2 (s.drop st) = some len
  | [], prev, st, len, h => by
    rw [findMatch.eq_def] at h
    obtain ⟨n, hm, hp⟩ := Option.map_eq_some'.mp h
    simp only [Prod.mk.injEq] at hp
    obtain ⟨rfl, rfl⟩ := hp
    exact ⟨prev, by simpa using hm⟩
  | c :: cs, prev, st, len, h => by
    rw [findMatch.eq_def] at h
    rcases hm : matchAt items prev (c :: cs) with _ | n
    · simp only [hm] at h
      obtain ⟨⟨st2, len2⟩, hf, hp⟩ := Option.map_eq_some'.mp h
      simp only [Prod.mk.injEq] at hp
      obtain ⟨rfl, rfl⟩ := hp
      obtain ⟨prev2, h2⟩ := findMatch_some_matchAt items cs (some c) st2 len2 hf
      exact ⟨prev2, by simpa using h2⟩
    · simp only [hm, Option.some_inj, Prod.mk.injEq] at h
      obtain ⟨rfl, rfl⟩ := h
      exact ⟨prev, by simpa using hm⟩

/-- When some pattern item must consume at least one character, every found
match is non-empty. -/
theorem findMatch_pos (items : List RItem) (hne : allEmpty items = false)
    (s : Str) (prev : Option Char) (st len : Nat)
    (h : findMatch items prev s = some (st, len)) : 1 ≤ len := by
  obtain ⟨prev2, hm⟩ := findMatch_some_matchAt items s prev st len h
  rcases Nat.eq_zero_or_pos len with rfl | h1
  · obtain ⟨_, _, _, hz⟩ := matchItems_spec _ items prev2 _ 0 hm
    rw [hz rfl] at hne
    exact Bool.noConfusion hne
  · exact h1

/-- The marker alone contains no match (for any preceding character). -/
theorem findMatch_marker_none (items : List RItem)
    (hne : allEmpty items = false)
    (H1 : ∀ (u : Str) (prev : Option Char) (len : Nat),
      matchAt items prev (u ++ truncMarker) = some len → len ≤ u.length)
    (htail : findMatch items (some '.') (truncMarker.drop 1) = none) :
    ∀ prev, findMatch items prev truncMarker = none := by
  intro prev
  have hm : matchAt items prev truncMarker = none := by
    rcases hx : matchAt items prev truncMarker with _ | n
    · rfl
    · have hb := H1 [] prev n (by rw [List.nil_append]; exact hx)
      simp only [List.length_nil, Nat.le_zero] at hb
      subst hb
      obtain ⟨_, _, _, hz⟩ := matchItems_spec _ items prev _ 0 hx
      rw [hz rfl] at hne
      exact Bool.noConfusion hne
  rw [show truncMarker = '.' :: truncMarker.drop 1 from rfl] at hm ⊢
  exact findMatch_cons_none items prev '.' _ hm htail

/-- No match of `items` in `pre ++ truncMarker` overlaps the marker. -/
theorem findMatch_append_bound (items : List RItem)
    (H1 : ∀ (u : Str) (prev : Option Char) (len : Nat),
      matchAt items prev (u ++ truncMarker) = some len → len ≤ u.length)
    (H0 : ∀ prev, findMatch items prev truncMarker = none) :
    ∀ (pre : Str) (prev : Option Char) (st len : Nat),
      findMatch items prev (pre ++ truncMarker) = some (st, len) → st + len ≤ pre.length
  | [], prev, st, len, h => by
    rw [List.nil_append, H0 prev] at h
    exact Option.noConfusion h
  | c :: pre2, prev, st, len, h => by
    rw [List.cons_append, findMatch.eq_def] at h
    rcases hm : matchAt items prev (c :: (pre2 ++ truncMarker)) with _ | n
    · simp only [hm] at h
      obtain ⟨⟨st2, len2⟩, hf, hp⟩ := Option.map_eq_some'.mp h
      simp only [Prod.mk.injEq] at hp
      obtain ⟨rfl, rfl⟩ := hp
      have hb := findMatch_append_bound items H1 H0 pre2 (some c) st2 len2 hf
      rw [List.length_cons]
      omega
    · simp only [hm, Option.some_inj, Prod.mk.injEq] at h
      obtain ⟨rfl, rfl⟩ := h
      have hb := H1 (c :: pre2) prev n (by rw [List.cons_append]; exact hm)
      omega

/-- Global replacement preserves a trailing truncation marker when no match
can overlap the marker and no match is empty. -/
theorem replAux_marker (items : List RItem) (repl : Str)
    (B : ∀ (pre : Str) (prev : Option Char) (st len : Nat),
      findMatch items prev (pre ++ truncMarker) = some (st, len) → st + len ≤ pre.length)
    (hne : allEmpty items = false) :
    ∀ (fuel : Nat) (pre : Str) (prev : Option Char),
      ∃ q, replAux fuel items repl prev (pre ++ truncMarker) = q ++ truncMarker
  | 0, pre, prev => ⟨pre, rfl⟩
  | fuel + 1, pre, prev => by
    rw [replAux.eq_def]
    rcases hf : findMatch items prev (pre ++ truncMarker) with _ | ⟨st, len⟩
    · exact ⟨pre, by simp only [hf]⟩
    · have hb := B pre prev st len hf
      have h1 : 1 ≤ len := findMatch_pos items hne _ prev st len hf
      simp only [hf]
      rw [if_neg (by omega : ¬ len = 0)]
      have hdrop : (pre ++ truncMarker).drop (st + len) =
          pre.drop (st + len) ++ truncMarker :=
        List.drop_append_of_le_length (by omega)
      obtain ⟨q, hq⟩ := replAux_marker items repl B hne fuel (pre.drop (st + len)) _
      rw [hdrop, hq]
      exact ⟨(pre ++ truncMarker).take st ++ repl ++ q, by simp [List.append_assoc]⟩

/-- `String.replace` (global) preserves a trailing truncation marker. -/
theorem jsReplaceAll_marker (items : List RItem) (repl : Str)
    (B : ∀ (pre : Str) (prev : Option Char) (st len : Nat),
      findMatch items prev (pre ++ truncMarker) = some (st, len) → st + len ≤ pre.length)
    (hne : allEmpty items = false) (pre : Str) :
    ∃ q, jsReplaceAll items repl (pre ++ truncMarker) = q ++ truncMarker :=
  replAux_marker items repl B hne _ pre none

theorem emailPat_bound : ∀ (pre : Str) (prev : Option Char) (st len : Nat),
    findMatch emailPat prev (pre ++ truncMarker) = some (st, len) → st + len ≤ pre.length :=
  findMatch_append_bound emailPat
    (matchAt_marker_bracket emailPat (by decide) (by decide) (by decide))
    (findMatch_marker_none emailPat (by decide)
      (matchAt_marker_bracket emailPat (by decide) (by decide) (by decide)) (by decide))

theorem cardPat_bound : ∀ (pre : Str) (prev : Option Char) (st len : Nat),
    findMatch cardPat prev (pre ++ truncMarker) = some (st, len) → st + len ≤ pre.length :=
  findMatch_append_bound cardPat
    (matchAt_marker_lastOK cardPat (by decide))
    (findMatch_marker_none cardPat (by decide)
      (matchAt_marker_lastOK cardPat (by decide)) (by decide))

theorem phonePat_bound : ∀ (pre : Str) (prev : Option Char) (st len : Nat),
    findMatch phonePat prev (pre ++ truncMarker) = some (st, len) → st + len ≤ pre.length :=
  findMatch_append_bound phonePat
    (matchAt_marker_lastOK phonePat (by decide))
    (findMatch_marker_none phonePat (by decide)
      (matchAt_marker_lastOK phonePat (by decide)) (by decide))

theorem ssnPat_bound : ∀ (pre : Str) (prev : Option Char) (st len : Nat),
    findMatch ssnPat prev (pre ++ truncMarker) = some (st, len) → st + len ≤ pre.length :=
  findMatch_append_bound ssnPat
    (matchAt_marker_lastOK ssnPat (by decide))
    (findMatch_marker_none ssnPat (by decide)
      (matchAt_marker_lastOK ssnPat (by decide)) (by decide))

theorem jwtPat_bound : ∀ (pre : Str) (prev : Option Char) (st len : Nat),
    findMatch jwtPat prev (pre ++ truncMarker) = some (st, len) → st + len ≤ pre.length :=
  findMatch_append_bound jwtPat
    (matchAt_marker_bracket jwtPat (by decide) (by decide) (by decide))
    (findMatch_marker_none jwtPat (by decide)
      (matchAt_marker_bracket jwtPat (by decide) (by decide) (by decide)) (by decide))

theorem apiKeyPat_bound : ∀ (pre : Str) (prev : Option Char) (st len : Nat),
    findMatch apiKeyPat prev (pre ++ truncMarker) = some (st, len) → st + len ≤ pre.length :=
  findMatch_append_bound apiKeyPat
    (matchAt_marker_bracket apiKeyPat (by decide) (by decide) (by decide))
    (findMatch_marker_none apiKeyPat (by decide)
      (matchAt_marker_bracket apiKeyPat (by decide) (by decide) (by decide)) (by decide))

theorem passwordPat_bound : ∀ (pre : Str) (prev : Option Char) (st len : Nat),
    findMatch passwordPat prev (pre ++ truncMarker) = some (st, len) → st + len ≤ pre.length :=
  findMatch_append_bound passwordPat
    (matchAt_marker_lastOK passwordPat (by decide))
    (findMatch_marker_none passwordPat (by decide)
      (matchAt_marker_lastOK passwordPat (by decide)) (by decide))

theorem regexLoopG_cons (timeoutMs : Nat) (orig : Str) (t : Nat)
    (f : Str → Except RegexFault Str) (rest : List PatEntry) (res : Str) :
    regexLoopG timeoutMs orig ((t, f) :: rest) res =
      if timeoutMs < t then res
      else
        match f res with
        | .ok r => regexLoopG timeoutMs orig rest r
        | .error .inner => regexLoopG timeoutMs orig rest res
        | .error .outer => orig := rfl

/-- The timeout loop preserves a trailing truncation marker whenever every
entry's applier does: completed iterations rewrite marker-suffixed text to
marker-suffixed text, and a timeout break returns the accumulated
marker-suffixed text. -/
theorem regexLoopG_marker (timeoutMs : Nat) (orig : Str) :
    ∀ (entries : List PatEntry) (q0 : Str),
      (∀ e ∈ entries, ∀ q : Str, ∃ q2, e.2 (q ++ truncMarker) =
        .ok (q2 ++ truncMarker)) →
      ∃ q, regexLoopG timeoutMs orig entries (q0 ++ truncMarker) = q ++ truncMarker
  | [], q0, hE => ⟨q0, rfl⟩
  | (t, f) :: rest, q0, hE => by
    rw [regexLoopG_cons]
    by_cases ht : timeoutMs < t
    · rw [if_pos ht]
      exact ⟨q0, rfl⟩
    · rw [if_neg ht]
      obtain ⟨q2, hq2⟩ := hE (t, f) (List.mem_cons_self _ _) q0
      have hrec := regexLoopG_marker timeoutMs orig rest q2
        (fun e he q => hE e (List.mem_cons_of_mem _ he) q)
      rw [show ((t, f) : PatEntry).2 = f from rfl] at hq2
      rw [hq2]
      exact hrec

/-- Each default pattern entry maps marker-suffixed text to `.ok`
marker-suffixed text. -/
theorem patEntries_marker (el : Nat → Nat) :
    ∀ e ∈ patEntries el defaultPatterns, ∀ q : Str,
      ∃ q2, e.2 (q ++ truncMarker) = .ok (q2 ++ truncMarker) := by
  intro e he q
  rw [show patEntries el defaultPatterns =
    [(el 0, fun s => Except.ok (jsReplaceAll emailPat (patTag ("email".toList)) s)),
     (el 1, fun s => Except.ok (jsReplaceAll cardPat (patTag ("card".toList)) s)),
     (el 2, fun s => Except.ok (jsReplaceAll phonePat (patTag ("phone".toList)) s)),
     (el 3, fun s => Except.ok (jsReplaceAll ssnPat (patTag ("ssn".toList)) s)),
     (el 4, fun s => Except.ok (jsReplaceAll jwtPat (patTag ("jwt".toList)) s)),
     (el 5, fun s => Except.ok (jsReplaceAll apiKeyPat (patTag ("apiKey".toList)) s)),
     (el 6, fun s => Except.ok (jsReplaceAll passwordPat (patTag ("password".toList)) s))]
    from rfl] at he
  simp only [List.mem_cons, List.not_mem_nil, or_false] at he
  rcases he with rfl | rfl | rfl | rfl | rfl | rfl | rfl
  · obtain ⟨q2, hq⟩ := jsReplaceAll_marker emailPat (patTag ("email".toList))
      emailPat_bound (by decide) q
    refine ⟨q2, ?_⟩
    show Except.ok (jsReplaceAll emailPat (patTag ("email".toList)) (q ++ truncMarker)) =
      Except.ok (q2 ++ truncMarker)
    rw [hq]
  · obtain ⟨q2, hq⟩ := jsReplaceAll_marker cardPat (patTag ("card".toList))
      cardPat_bound (by decide) q
    refine ⟨q2, ?_⟩
    show Except.ok (jsReplaceAll cardPat (patTag ("card".toList)) (q ++ truncMarker)) =
      Except.ok (q2 ++ truncMarker)
    rw [hq]
  · obtain ⟨q2, hq⟩ := jsReplaceAll_marker phonePat (patTag ("phone".toList))
      phonePat_bound (by decide) q
    refine ⟨q2, ?_⟩
    show Except.ok (jsReplaceAll phonePat (patTag ("phone".toList)) (q ++ truncMarker)) =
      Except.ok (q2 ++ truncMarker)
    rw [hq]
  · obtain ⟨q2, hq⟩ := jsReplaceAll_marker ssnPat (patTag ("ssn".toList))
      ssnPat_bound (by decide) q
    refine ⟨q2, ?_⟩
    show Except.ok (jsReplaceAll ssnPat (patTag ("ssn".toList)) (q ++ truncMarker)) =
      Except.ok (q2 ++ truncMarker)
    rw [hq]
  · obtain ⟨q2, hq⟩ := jsReplaceAll_marker jwtPat (patTag ("jwt".toList))
      jwtPat_bound (by decide) q
    refine ⟨q2, ?_⟩
    show Except.ok (jsReplaceAll jwtPat (patTag ("jwt".toList)) (q ++ truncMarker)) =
      Except.ok (q2 ++ truncMarker)
    rw [hq]
  · obtain ⟨q2, hq⟩ := jsReplaceAll_marker apiKeyPat (patTag ("apiKey".toList))
      apiKeyPat_bound (by decide) q
    refine ⟨q2, ?_⟩
    show Except.ok (jsReplaceAll apiKeyPat (patTag ("apiKey".toList)) (q ++ truncMarker)) =
      Except.ok (q2 ++ truncMarker)
    rw [hq]
  · obtain ⟨q2, hq⟩ := jsReplaceAll_marker passwordPat (patTag ("password".toList))
      passwordPat_bound (by decide) q
    refine ⟨q2, ?_⟩
    show Except.ok (jsReplaceAll passwordPat (patTag ("password".toList)) (q ++ truncMarker)) =
      Except.ok (q2 ++ truncMarker)
    rw [hq]

/-- Under the default patterns (and any regex clock), the whole pipeline
preserves a trailing truncation marker. -/
theorem applyRegex_marker (el : Nat → Nat) (pre : Str) :
    ∃ q, applyRegexWithTimeout el defaultPatterns (pre ++ truncMarker) =
      q ++ truncMarker :=
  regexLoopG_marker REGEX_TIMEOUT_MS (pre ++ truncMarker)
    (patEntries el defaultPatterns) pre (patEntries_marker el)

/-- C6, amended. For every 6000-character input string, sanitize first cuts
it to 5000 characters and appends the truncation marker *before* any pattern
matching runs (the result is exactly the regex pipeline applied to the
truncated text), and — under the default sensitive patterns and any regex
clock — the returned string always still ends with the truncation marker,
because no default-pattern match can overlap the appended marker. But the
returned length can exceed 5000 + marker length, because a pattern tag may
be longer than the text it replaces (see the counterexample). -/
theorem claim_C6 (el : Nat → Nat) (h : Heap) (st : GState) (s : Str)
    (hlen : s.length = 6000) :
    sanitizeTop el h st (.vStr s) =
      (.str (applyRegexWithTimeout el st.patterns
        (s.take MAX_STRING_LENGTH ++ truncMarker)), st) ∧
    (st.patterns = defaultPatterns →
      ∃ q, (sanitizeTop el h st (.vStr s)).1 = .str (q ++ truncMarker)) := by
  have heq := sanitizeTop_vStr_long el h st s (by rw [hlen]; decide)
  refine ⟨heq, fun hpat => ?_⟩
  obtain ⟨q, hq⟩ := applyRegex_marker el (s.take MAX_STRING_LENGTH)
  refine ⟨q, ?_⟩
  rw [heq]
  show SVal.str (applyRegexWithTimeout el st.patterns
    (s.take MAX_STRING_LENGTH ++ truncMarker)) = .str (q ++ truncMarker)
  rw [hpat, hq]

/-- C6, witness: a concrete 6000-character string satisfying the amended
claim, with the length hypothesis and the default-pattern-registry condition
both discharged. -/
theorem claim_C6_witness :
    (sanitizeTop zeroElapsed emptyHeap initState (.vStr (List.replicate 6000 'x')) =
      (.str (applyRegexWithTimeout zeroElapsed initState.patterns
        ((List.replicate 6000 'x').take MAX_STRING_LENGTH ++ truncMarker)), initState)) ∧
    (∃ q, (sanitizeTop zeroElapsed emptyHeap initState
        (.vStr (List.replicate 6000 'x'))).1 = .str (q ++ truncMarker)) := by
  have H := claim_C6 zeroElapsed emptyHeap initState (List.replicate 6000 'x')
    (by rw [List.length_replicate])
  exact ⟨H.1, H.2 rfl⟩

end WebLogger
